import Mathlib

/-!
# Verification of the graph-algorithms module (`src/paths.go`)

A shallow embedding of the four exported operations of the module —
`CreatesCycle`, `ShortestPath`, `StronglyConnectedComponents` and
`FindAllPaths` — together with proofs and refutations of the frozen claims
about them.

Modelling conventions:

* A graph is the data the Graph Query Facade hands to the module: the trait
  flags, the vertex store (used by `g.Vertex`), the adjacency snapshot and the
  predecessor snapshot.  Go maps are modelled as association lists (iteration
  order of a Go map is unspecified; the list order fixes one concrete order)
  together with total lookup functions that return the Go zero value / empty
  map for missing keys, exactly as Go map indexing does.
* Working maps (`weights`, `bestPredecessors`, `visited`, …) are modelled as
  Lean functions updated pointwise, again with the Go zero-value default.
* Edge weights are `Int` (the library's `EdgeProperties.Weight` is an `int`);
  the `float64` distances of `ShortestPath` take values in `WithTop ℤ`
  (`⊤` = `math.Inf(1)`); all arithmetic performed by the code on these values
  is exact, so this is a faithful model.
* The priority queue is not under `src/`; it is modelled from the spec
  (push, pop-minimum returning an error exactly on an empty queue,
  update-priority valid only for a present item, size).  Ties between equal
  priorities pop the earliest-pushed item (the spec leaves ties unspecified).
* Loops are fueled structural recursions so that every definition computes by
  kernel reduction.  Where a Go loop can genuinely diverge
  (`ShortestPath`'s path reconstruction on a negative cycle) the function
  returns `Option …` and `none` models divergence; the fuel given is large
  enough that `none` is returned only on inputs where the Go loop really does
  not terminate, and for the terminating cases this is proved where a claim
  needs it.
-/

namespace PathsGo

/-- The error taxonomy of the module (spec section 7). -/
inductive GErr where
  | vertexNotFound
  | targetNotReachable
  | invalidGraphKind
  | queueError
deriving DecidableEq, Repr

/-- Structural traits of a graph (`g.Traits()`). -/
structure Traits where
  isDirected : Bool
  isWeighted : Bool
deriving DecidableEq, Repr

/-- The data a graph hands to the module: traits, vertex store, adjacency
snapshot and predecessor snapshot.  An adjacency entry `(v, [(w, e), …])`
says the vertex hashed `v` has an outgoing edge to `w` of weight `e`. -/
structure Graph (K : Type) where
  traits : Traits
  verts : List K
  adj : List (K × List (K × Int))
  pred : List (K × List (K × Int))

/-- Association-list lookup, the model of Go map indexing (before applying
the zero-value default). -/
def lookupList {K β : Type} [DecidableEq K] : List (K × β) → K → Option β
  | [], _ => none
  | (a, b) :: t, k => if a = k then some b else lookupList t k

/-- `adjacencyMap[v]`: the outgoing-edge map of `v`, empty when `v` is not a
key (the Go zero value of a map read). -/
def Graph.adjOf {K : Type} [DecidableEq K] (g : Graph K) (v : K) : List (K × Int) :=
  (lookupList g.adj v).getD []

/-- `predecessorMap[v]`: the incoming-edge map of `v`, empty when absent. -/
def Graph.predOf {K : Type} [DecidableEq K] (g : Graph K) (v : K) : List (K × Int) :=
  (lookupList g.pred v).getD []

/-- The keys of the adjacency snapshot (`for hash := range adjacencyMap`). -/
def Graph.keys {K : Type} (g : Graph K) : List K := g.adj.map Prod.fst

/-- Pointwise update of a function map, the model of a Go map write. -/
def upd {K β : Type} [DecidableEq K] (f : K → β) (k : K) (v : β) : K → β :=
  fun x => if x = k then v else f x

/-- `v` has a directed edge to `w` in the adjacency snapshot. -/
def Graph.hasEdge {K : Type} [DecidableEq K] (g : Graph K) (v w : K) : Prop :=
  w ∈ (g.adjOf v).map Prod.fst

instance {K : Type} [DecidableEq K] (g : Graph K) (v w : K) :
    Decidable (g.hasEdge v w) := by
  unfold Graph.hasEdge; infer_instance

/-- `w` is a predecessor of `v` in the predecessor snapshot. -/
def Graph.hasPred {K : Type} [DecidableEq K] (g : Graph K) (v w : K) : Prop :=
  w ∈ (g.predOf v).map Prod.fst

instance {K : Type} [DecidableEq K] (g : Graph K) (v w : K) :
    Decidable (g.hasPred v w) := by
  unfold Graph.hasPred; infer_instance

/-- `p` is a path of forward (adjacency) edges from `s` to `t`: non-empty,
starting at `s`, ending at `t`, with an edge between consecutive vertices. -/
def IsPathF {K : Type} [DecidableEq K] (g : Graph K) : K → K → List K → Prop
  | _, _, [] => False
  | s, t, [v] => v = s ∧ v = t
  | s, t, v :: w :: rest => v = s ∧ g.hasEdge v w ∧ IsPathF g w t (w :: rest)

instance IsPathF.dec {K : Type} [DecidableEq K] (g : Graph K) :
    ∀ (s t : K) (p : List K), Decidable (IsPathF g s t p)
  | _, _, [] => isFalse (fun h => h)
  | s, t, [v] => inferInstanceAs (Decidable (v = s ∧ v = t))
  | s, t, v :: w :: rest =>
    have : Decidable (IsPathF g w t (w :: rest)) := IsPathF.dec g w t (w :: rest)
    inferInstanceAs (Decidable (v = s ∧ g.hasEdge v w ∧ IsPathF g w t (w :: rest)))

/-- `t` is forward-reachable from `s` (spec: "the forward-reachable set of
`source`", following directed edges). -/
def ReachF {K : Type} [DecidableEq K] (g : Graph K) (s t : K) : Prop :=
  ∃ p, IsPathF g s t p

/-- `t` is reachable from `s` by walking backward through predecessor edges
(the relation explored by `CreatesCycle`'s DFS). -/
inductive ReachP {K : Type} [DecidableEq K] (g : Graph K) (s : K) : K → Prop
  | refl : ReachP g s s
  | step {c d : K} : ReachP g s c → g.hasPred c d → ReachP g s d

/-- Well-formedness guaranteed by the Graph Query Facade: the adjacency
snapshot has one entry per vertex of the store, edge endpoints are vertices,
the inner edge maps have distinct keys, and the predecessor snapshot is the
converse of the adjacency snapshot. -/
def Graph.Wf {K : Type} [DecidableEq K] (g : Graph K) : Prop :=
  g.keys.Nodup ∧
  (g.pred.map Prod.fst).Nodup ∧
  (∀ v, v ∈ g.verts ↔ v ∈ g.keys) ∧
  (∀ p ∈ g.adj, (p.2.map Prod.fst).Nodup) ∧
  (∀ p ∈ g.pred, (p.2.map Prod.fst).Nodup) ∧
  (∀ p ∈ g.adj, ∀ q ∈ p.2, q.1 ∈ g.keys ∧ (p.1, q.2) ∈ (g.predOf q.1)) ∧
  (∀ p ∈ g.pred, ∀ q ∈ p.2, (p.1, q.2) ∈ (g.adjOf q.1))

instance {K : Type} [DecidableEq K] (g : Graph K) : Decidable g.Wf := by
  unfold Graph.Wf
  have h3 : Decidable (∀ v, v ∈ g.verts ↔ v ∈ g.keys) := by
    refine decidable_of_iff
      ((∀ v ∈ g.verts, v ∈ g.keys) ∧ (∀ v ∈ g.keys, v ∈ g.verts)) ?_
    constructor
    · rintro ⟨h1, h2⟩ v; exact ⟨h1 v, h2 v⟩
    · intro h; exact ⟨fun v hv => (h v).1 hv, fun v hv => (h v).2 hv⟩
  exact instDecidableAnd

/-! ## Priority queue

Modelled from the spec: the priority-queue dependency (spec sections 2 and 6)
exposes `push`, `popMinimum` (failing exactly on an empty queue, with
`EmptyError`), `updatePriority` (valid only for an item already present; a
no-op otherwise) and `size`.  The repository's `priorityQueue` implementation
is not under `src/`.  Priorities are the `float64` weights, modelled exactly
as `WithTop ℤ`.  Ties between equal priorities are unspecified upstream; this
model pops the earliest-pushed item of minimal priority. -/

/-- Distances/priorities: `⊤` is `math.Inf(1)`, everything the code computes
on finite values is integer arithmetic. -/
abbrev W := WithTop ℤ

/-- `queue.Push(item, priority)`. -/
def pqPush {α : Type} (q : List (α × W)) (x : α) (p : W) : List (α × W) :=
  q ++ [(x, p)]

/-- `queue.Pop()`: remove and return an item of minimal priority, `none`
exactly when the queue is empty (the spec's `EmptyError`). -/
def pqPopMin {α : Type} : List (α × W) → Option ((α × W) × List (α × W))
  | [] => none
  | x :: xs =>
    match pqPopMin xs with
    | none => some (x, [])
    | some (m, rest) => if x.2 ≤ m.2 then some (x, xs) else some (m, x :: rest)

/-- `queue.UpdatePriority(item, priority)`: update the priority of a present
item, a no-op for an absent one. -/
def pqUpdate {α : Type} [DecidableEq α] (q : List (α × W)) (x : α) (p : W) :
    List (α × W) :=
  q.map (fun y => if y.1 = x then (y.1, p) else y)

/-! ## CreatesCycle (src/paths.go lines 17-60) -/

/-- The keys of the predecessor snapshot, deduplicated (only used for the
fuel bound of the DFS). -/
def Graph.pkeys {K : Type} [DecidableEq K] (g : Graph K) : List K :=
  (g.pred.map Prod.fst).dedup

/-- The DFS loop of `CreatesCycle` (lines 40-57): pop the top of the stack;
an unvisited vertex is compared against `target`, marked visited, and its
predecessors are pushed.  `none` models fuel exhaustion and is never returned
for the fuel `CreatesCycle` supplies. -/
def cdfs {K : Type} [DecidableEq K] (g : Graph K) (target : K) :
    Nat → List K → List K → Option Bool
  | 0, _, _ => none
  | _ + 1, [], _ => some false
  | f + 1, c :: stack, visited =>
    if c ∈ visited then cdfs g target f stack visited
    else if c = target then some true
    else cdfs g target f (((g.predOf c).map Prod.fst) ++ stack) (c :: visited)

/-- Every loop iteration of the DFS decreases this potential by exactly one,
so it bounds the number of iterations. -/
def cdfsPotential {K : Type} [DecidableEq K] (g : Graph K)
    (stack visited : List K) : Nat :=
  stack.length +
    ((g.pkeys.filter (fun v => v ∉ visited)).map
      (fun v => (g.predOf v).length)).sum

/-- Fuel that strictly dominates the initial potential of the DFS. -/
def cdfsFuel {K : Type} [DecidableEq K] (g : Graph K) : Nat :=
  2 + (g.pkeys.map (fun v => (g.predOf v).length)).sum

/-- `CreatesCycle(g, source, target)` (lines 17-60): vertex-existence checks,
the `source == target` shortcut, then a DFS through the predecessor snapshot
seeded at `source`. -/
def CreatesCycle {K : Type} [DecidableEq K] (g : Graph K) (source target : K) :
    Option (Except GErr Bool) :=
  if source ∉ g.verts then some (.error .vertexNotFound)
  else if target ∉ g.verts then some (.error .vertexNotFound)
  else if source = target then some (.ok true)
  else (cdfs g target (cdfsFuel g) [source] []).map .ok

/-! ## ShortestPath (src/paths.go lines 71-138) -/

/-- The initial distance table (lines 72-91): `weights[source] = 0`, every
other adjacency key `+Inf`; a read of any other hash yields the Go map zero
value `0`.  (The `visited` map of lines 73-87 is written but never read, so
it is not modelled.) -/
def initWeights {K : Type} [DecidableEq K] (g : Graph K) (source : K) : K → W :=
  fun k => if k = source then (0 : W) else if k ∈ g.keys then ⊤ else (0 : W)

/-- The effective weight of an edge (lines 103-110): the stored weight on a
weighted graph, 1 on an unweighted one. -/
def effW (weighted : Bool) (e : Int) : Int := if weighted then e else 1

/-- The relaxation loop over the popped vertex's outgoing edges (lines
102-119): an unweighted graph forces effective edge weight 1; on strict
improvement (and a non-infinite popped distance) the distance, best
predecessor and queue priority of the edge target are updated. -/
def relaxList {K : Type} [DecidableEq K] (weighted : Bool) (v : K)
    (hasInf : Bool) :
    List (K × Int) → (K → W) → (K → Option K) → List (K × W) →
      ((K → W) × (K → Option K) × List (K × W))
  | [], w, bp, q => (w, bp, q)
  | (a, e) :: es, w, bp, q =>
    let nw : W := w v + (effW weighted e : W)
    if nw < w a ∧ hasInf = false then
      relaxList weighted v hasInf es (upd w a nw) (upd bp a (some v))
        (pqUpdate q a nw)
    else
      relaxList weighted v hasInf es w bp q

/-- The main loop of `ShortestPath` (lines 98-120): while the queue is
non-empty, pop a minimum vertex, record whether its distance is infinite,
and relax its outgoing edges.  The fuel is the queue length, which falls by
exactly one per iteration, so the fuel runs out exactly when the queue is
empty. -/
def dijkstraLoop {K : Type} [DecidableEq K] (g : Graph K) :
    Nat → List (K × W) → (K → W) → (K → Option K) → ((K → W) × (K → Option K))
  | 0, _, w, bp => (w, bp)
  | f + 1, q, w, bp =>
    match pqPopMin q with
    | none => (w, bp)
    | some ((v, _), rest) =>
      let hasInf : Bool := decide (w v = ⊤)
      let s := relaxList g.traits.isWeighted v hasInf (g.adjOf v) w bp rest
      dijkstraLoop g f s.2.2 s.1 s.2.1

/-- The path-reconstruction loop (lines 122-137): walk `bestPredecessors`
backward from `target`; a missing entry is `ErrTargetNotReachable`.  The Go
loop does not terminate when the walk enters a cycle (possible only with
negative weights); `none` models that divergence.  The fuel exceeds the
number of distinct vertices, so a run that returns `none` really does revisit
a vertex, i.e. the Go loop really diverges. -/
def reconstruct {K : Type} [DecidableEq K] (bp : K → Option K) (source : K) :
    Nat → K → List K → Option (Except GErr (List K))
  | 0, _, _ => none
  | f + 1, current, path =>
    if current = source then some (.ok path)
    else
      match bp current with
      | none => some (.error .targetNotReachable)
      | some u => reconstruct bp source f u (u :: path)

/-- `ShortestPath(g, source, target)` (lines 71-138). -/
def ShortestPath {K : Type} [DecidableEq K] (g : Graph K) (source target : K) :
    Option (Except GErr (List K)) :=
  let w0 := initWeights g source
  let q0 := g.keys.map (fun k => (k, w0 k))
  let r := dijkstraLoop g q0.length q0 w0 (fun _ => none)
  reconstruct r.2 source (g.keys.length + 2) target [target]

/-! ## StronglyConnectedComponents (src/paths.go lines 140-235) -/

/-- The per-run state of Tarjan's algorithm (`sccState`, lines 140-149).
`lowlink` and `index` are Go `map[K]int`s, read as 0 when missing. -/
structure SccState (K : Type) where
  components : List (List K)
  /-- The explicit DFS stack.  Go pushes with `append` and pops
  `stack[len-1]`; here the top of the stack is the *head* of the list. -/
  stack : List K
  onStack : K → Bool
  visited : K → Bool
  lowlink : K → Nat
  index : K → Nat
  time : Nat

/-- The component-emission loop (lines 222-231).  It is Go's do-while
emulation: `var hash K` starts at the zero value of `K` (the `dflt`
argument below, instantiated with `default`), and the condition
`hash != vertexHash` is tested *before* the first pop — so when the root
vertex hash equals the zero value the loop body never runs.  An empty stack
(where the Go code would panic on `state.stack[len-1]`) stops the loop;
this case is unreachable because the root is always on the stack. -/
def popUntil {K : Type} [DecidableEq K] (root : K) :
    List K → K → (K → Bool) → List K → (List K × (K → Bool) × List K)
  | stack, hash, onStack, comp =>
    if hash = root then (stack, onStack, comp)
    else
      match stack with
      | [] => ([], onStack, comp)
      | h :: t => popUntil root t h (upd onStack h false) (comp ++ [h])

/-- The edge loop of `findSCC` (lines 194-216), iterating over the popped
vertex's adjacencies: recurse into unvisited targets and merge lowlinks;
for a visited, still-on-stack target (a back edge) lower the lowlink to the
target's discovery index.  `step` is the recursive call to `findSCC` with
one unit of fuel consumed. -/
def sccVisitChildren {K : Type} [DecidableEq K]
    (step : K → SccState K → SccState K) (v : K) :
    List K → SccState K → SccState K
  | [], st => st
  | a :: rest, st =>
    let st' :=
      if st.visited a = false then
        let st1 := step a st
        { st1 with
          lowlink := upd st1.lowlink v (min (st1.lowlink v) (st1.lowlink a)) }
      else if st.onStack a = true then
        { st with
          lowlink := upd st.lowlink v (min (st.lowlink v) (st.index a)) }
      else st
    sccVisitChildren step v rest st'

/-- `findSCC` (lines 185-235): push and mark the vertex, assign discovery
index and initial lowlink, visit the children, and emit a component when the
vertex roots one.  The fuel bounds the recursion depth; the fuel supplied by
`StronglyConnectedComponents` exceeds any reachable depth (each nested call
visits a vertex unvisited at call time). -/
def findSCC {K : Type} [DecidableEq K] [Inhabited K] (g : Graph K) :
    Nat → K → SccState K → SccState K
  | 0, _, st => st
  | f + 1, v, st0 =>
    let st1 : SccState K :=
      { st0 with
        stack := v :: st0.stack
        onStack := upd st0.onStack v true
        visited := upd st0.visited v true
        index := upd st0.index v st0.time
        lowlink := upd st0.lowlink v st0.time
        time := st0.time + 1 }
    let st2 := sccVisitChildren (findSCC g f) v ((g.adjOf v).map Prod.fst) st1
    if st2.lowlink v = st2.index v then
      let r := popUntil v st2.stack default st2.onStack []
      { st2 with
        stack := r.1
        onStack := r.2.1
        components := st2.components ++ [r.2.2] }
    else st2

/-- Recursion-depth fuel for `findSCC`: more than the number of vertices that
can ever be visited. -/
def sccFuel {K : Type} [DecidableEq K] (g : Graph K) : Nat :=
  2 + g.keys.length + (g.adj.map (fun p => p.2.length)).sum

/-- `StronglyConnectedComponents(g)` (lines 156-183): refuse undirected
graphs, then run `findSCC` from every unvisited adjacency key. -/
def StronglyConnectedComponents {K : Type} [DecidableEq K] [Inhabited K]
    (g : Graph K) : Except GErr (List (List K)) :=
  if g.traits.isDirected = false then .error .invalidGraphKind
  else
    let st0 : SccState K :=
      { components := []
        stack := []
        onStack := fun _ => false
        visited := fun _ => false
        lowlink := fun _ => 0
        index := fun _ => 0
        time := 0 }
    let stF := g.keys.foldl
      (fun st h => if st.visited h = false then findSCC g (sccFuel g) h st else st)
      st0
    .ok stF.components

/-! ## FindAllPaths (src/paths.go lines 237-283)

`FindAllPaths` is specialized to `string` vertex hashes.  It carries partial
paths through the priority queue as `"->"`-joined strings and tests vertex
membership with `strings.Contains`.  Strings are modelled on their character
lists (Go operates on bytes; the two views agree on the ASCII inputs of
interest); `strSplitGap` and `strContains` are the models of
`strings.Split(s, "->")` and `strings.Contains`. -/

/-- The separator `gap = "->"` (line 252). -/
def gap : String := "->"

/-- Splitter on the two-character separator `"->"` (leftmost,
non-overlapping occurrences, like Go's `strings.Split`). -/
def splitGapAux : List Char → List Char → List (List Char)
  | '-' :: '>' :: rest, cur => cur.reverse :: splitGapAux rest []
  | c :: rest, cur => splitGapAux (rest) (c :: cur)
  | [], cur => [cur.reverse]

/-- `strings.Split(s, "->")`. -/
def strSplitGap (s : String) : List String :=
  (splitGapAux s.data []).map String.mk

/-- `l₁` is a prefix of `l₂` (Boolean). -/
def isPrefixL {α : Type} [DecidableEq α] : List α → List α → Bool
  | [], _ => true
  | _ :: _, [] => false
  | a :: as, b :: bs => a = b && isPrefixL as bs

/-- `sub` occurs contiguously inside `l` (Boolean). -/
def isInfixL {α : Type} [DecidableEq α] (sub : List α) : List α → Bool
  | [] => isPrefixL sub []
  | b :: bs => isPrefixL sub (b :: bs) || isInfixL sub bs

/-- `strings.Contains(s, sub)`: `sub` is a substring of `s`. -/
def strContains (s sub : String) : Bool := isInfixL sub.data s.data

/-- The expansion of one dequeued partial path over the outgoing edges of its
last vertex (lines 269-278): an edge target not yet contained (as a
substring!) in the path string extends it; reaching `target` completes a
path, anything else is re-enqueued with priority 0. -/
def faExpand (target path : String) :
    List (String × Int) → List (String × W) → List String →
      (List (String × W) × List String)
  | [], q, ps => (q, ps)
  | (a, _) :: es, q, ps =>
    if strContains path a = false then
      let rp := path ++ gap ++ a
      if a ≠ target then faExpand target path es (pqPush q rp 0) ps
      else faExpand target path es q (ps ++ [rp])
    else faExpand target path es q ps

/-- The BFS work loop of `FindAllPaths` (lines 258-280): while the queue is
non-empty, pop a partial path (a failing pop would surface as `QueueError`,
line 261), split it on `"->"`, and expand from its last vertex.  `none`
models fuel exhaustion; the fuel supplied by `FindAllPaths` dominates the
number of partial paths the loop can ever enqueue. -/
def faLoop (g : Graph String) (target : String) :
    Nat → List (String × W) → List String → Option (Except GErr (List String))
  | 0, _, _ => none
  | f + 1, q, paths =>
    if q.length > 0 then
      match pqPopMin q with
      | none => some (.error .queueError)
      | some ((path, _), rest) =>
        let vertexArray := strSplitGap path
        if vertexArray.length > 0 then
          let lastVertex := vertexArray.getLastD ""
          let s := faExpand target path (g.adjOf lastVertex) rest paths
          faLoop g target f s.1 s.2
        else faLoop g target f rest paths
    else some (.ok paths)

/-- Work-loop fuel: every enqueued path extends its parent by a vertex not
yet substring-contained in it, so path depth is bounded by the vertex count
and the work tree is finite; this tower dominates its size. -/
def faFuel (g : Graph String) : Nat :=
  let n := g.keys.length + (g.adj.map (fun p => p.2.length)).sum + 2
  n ^ n

/-- `FindAllPaths(g, source, target)` (lines 243-283): seed the queue with
the single-vertex path `source` at priority 0 and run the BFS loop. -/
def FindAllPaths (g : Graph String) (source target : String) :
    Option (Except GErr (List String)) :=
  faLoop g target (faFuel g) [(source, (0 : W))] []

/-! ## Spec-side notions used by the claims -/

/-- The stored weight of the edge `u → v` (0 if there is none; the graphs of
interest consult this only on existing edges). -/
def edgeWeight {K : Type} [DecidableEq K] (g : Graph K) (u v : K) : Int :=
  (lookupList (g.adjOf u) v).getD 0

/-- Total effective weight of a path (sum over consecutive pairs). -/
def pathCost {K : Type} [DecidableEq K] (g : Graph K) : List K → Int
  | [] => 0
  | [_] => 0
  | u :: v :: rest => effW g.traits.isWeighted (edgeWeight g u v) + pathCost g (v :: rest)

/-- All effective edge weights of the graph are non-negative (the spec's
standing Dijkstra precondition; automatic for unweighted graphs). -/
def NonnegWeights {K : Type} [DecidableEq K] (g : Graph K) : Prop :=
  ∀ p ∈ g.adj, ∀ q ∈ p.2, (0 : Int) ≤ effW g.traits.isWeighted q.2

instance {K : Type} [DecidableEq K] (g : Graph K) :
    Decidable (NonnegWeights g) := by
  unfold NonnegWeights; infer_instance

/-- The loop invariant of the Dijkstra main loop of `ShortestPath`, relating
the queue, the distance table and the best-predecessor table.  `S` is the
ghost list of *settled* vertices — vertices popped with a finite distance
and fully relaxed — in pop order. -/
structure DInv {K : Type} [DecidableEq K] (g : Graph K) (s : K) (S : List K)
    (q : List (K × W)) (w : K → W) (bp : K → Option K) : Prop where
  nodupS : S.Nodup
  subS : ∀ x ∈ S, x ∈ g.keys
  itemsSub : ∀ x ∈ q.map Prod.fst, x ∈ g.keys
  itemsNodup : (q.map Prod.fst).Nodup
  disj : ∀ x ∈ S, x ∉ q.map Prod.fst
  cover : ∀ x ∈ g.keys, x ∉ q.map Prod.fst → x ∉ S → w x = ⊤
  sync : ∀ y ∈ q, y.2 = w y.1
  phase : (∀ x ∈ g.keys, x ∉ q.map Prod.fst → x ∈ S) ∨ (∀ y ∈ q, w y.1 = ⊤)
  settledMin : ∀ u ∈ S, ∀ x ∈ q.map Prod.fst, w u ≤ w x
  settledRelaxed : ∀ u ∈ S, ∀ p ∈ g.adjOf u,
    w p.1 ≤ w u + (effW g.traits.isWeighted p.2 : W)
  settledOpt : ∀ u ∈ S, ∀ p, IsPathF g s u p → w u ≤ (pathCost g p : W)
  realizable : ∀ x ∈ g.keys, w x ≠ ⊤ →
    ∃ p, IsPathF g s x p ∧ (pathCost g p : W) = w x
  ws : w s = (0 : W)
  sFinite : ∀ u ∈ S, w u ≠ ⊤
  bpDom : ∀ x u, bp x = some u → x ∈ g.keys ∧ ¬ x = s
  bpS : ∀ x u, bp x = some u → u ∈ S ∧
    ∃ e, (x, e) ∈ g.adjOf u ∧ w u + (effW g.traits.isWeighted e : W) = w x
  bpRank : ∀ x u, bp x = some u → x ∈ S → S.indexOf u < S.indexOf x
  finiteBp : ∀ x ∈ g.keys, w x ≠ ⊤ → ¬ x = s → bp x ≠ none

/-! ## Concrete instances

Small concrete graphs used to instantiate hypotheses and to exhibit
counterexamples.  Each lists its adjacency and (where relevant) the matching
predecessor snapshot. -/

/-- The spec section 8 example for `findAllPaths`: edges A→B, A→C, B→D, C→D
(unweighted, directed). -/
def pathsExampleG : Graph String :=
  { traits := ⟨true, false⟩
    verts := ["A", "B", "C", "D"]
    adj := [("A", [("B", 0), ("C", 0)]), ("B", [("D", 0)]),
            ("C", [("D", 0)]), ("D", [])]
    pred := [("A", []), ("B", [("A", 0)]), ("C", [("A", 0)]),
             ("D", [("B", 0), ("C", 0)])] }

/-- A graph whose middle vertex hash `"B->C"` contains the separator:
A → "B->C" → D. -/
def sepCollisionG : Graph String :=
  { traits := ⟨true, false⟩
    verts := ["A", "B->C", "D"]
    adj := [("A", [("B->C", 0)]), ("B->C", [("D", 0)]), ("D", [])]
    pred := [("A", []), ("B->C", [("A", 0)]), ("D", [("B->C", 0)])] }

/-- A graph where one vertex hash (`"A"`) is a substring of another
(`"AB"`): AB → A → C. -/
def substrCollisionG : Graph String :=
  { traits := ⟨true, false⟩
    verts := ["AB", "A", "C"]
    adj := [("AB", [("A", 0)]), ("A", [("C", 0)]), ("C", [])]
    pred := [("AB", []), ("A", [("AB", 0)]), ("C", [("A", 0)])] }

/-- A single chain A → B → D (unweighted, directed). -/
def lineG : Graph String :=
  { traits := ⟨true, false⟩
    verts := ["A", "B", "D"]
    adj := [("A", [("B", 0)]), ("B", [("D", 0)]), ("D", [])]
    pred := [("A", []), ("B", [("A", 0)]), ("D", [("B", 0)])] }

/-- A weighted graph with a negative cycle of best-predecessor updates:
s → a (1), a → b (1), b → a (-10). -/
def negCycleG : Graph String :=
  { traits := ⟨true, true⟩
    verts := ["s", "a", "b"]
    adj := [("s", [("a", 1)]), ("a", [("b", 1)]), ("b", [("a", -10)])]
    pred := [("s", []), ("a", [("s", 1), ("b", -10)]), ("b", [("a", 1)])] }

/-- The spec section 8 weighted example: A→B (1), B→C (2), A→C (5). -/
def weightedExampleG : Graph String :=
  { traits := ⟨true, true⟩
    verts := ["A", "B", "C"]
    adj := [("A", [("B", 1), ("C", 5)]), ("B", [("C", 2)]), ("C", [])]
    pred := [("A", []), ("B", [("A", 1)]), ("C", [("A", 5), ("B", 2)])] }

/-- A directed graph with the single vertex `""` — the zero value of the
hash type `string` — and no edges. -/
def sccZeroValueG : Graph String :=
  { traits := ⟨true, true⟩
    verts := [""]
    adj := [("", [])]
    pred := [("", [])] }

/-- A directed graph with the single vertex `"a"` and no edges. -/
def sccSingletonG : Graph String :=
  { traits := ⟨true, true⟩
    verts := ["a"]
    adj := [("a", [])]
    pred := [("a", [])] }

/-- An undirected graph (for the `StronglyConnectedComponents` guard). -/
def undirectedDemoG : Graph String :=
  { traits := ⟨false, false⟩
    verts := ["a", "b"]
    adj := [("a", [("b", 0)]), ("b", [("a", 0)])]
    pred := [("a", [("b", 0)]), ("b", [("a", 0)])] }

/-! ## Basic lemmas -/

theorem hasEdge_iff {K : Type} [DecidableEq K] (g : Graph K) (v w : K) :
    g.hasEdge v w ↔ ∃ e, (w, e) ∈ g.adjOf v := by
  unfold Graph.hasEdge
  simp only [List.mem_map, Prod.exists]
  constructor
  · rintro ⟨a, b, hm, rfl⟩; exact ⟨b, hm⟩
  · rintro ⟨e, hm⟩; exact ⟨w, e, hm, rfl⟩

theorem hasPred_iff {K : Type} [DecidableEq K] (g : Graph K) (v w : K) :
    g.hasPred v w ↔ ∃ e, (w, e) ∈ g.predOf v := by
  unfold Graph.hasPred
  simp only [List.mem_map, Prod.exists]
  constructor
  · rintro ⟨a, b, hm, rfl⟩; exact ⟨b, hm⟩
  · rintro ⟨e, hm⟩; exact ⟨w, e, hm, rfl⟩

/-- Popping a non-empty queue always yields an item (the spec's `EmptyError`
arises only on an empty queue). -/
theorem pqPopMin_cons_ne_none {α : Type} (x : α × W) (xs : List (α × W)) :
    pqPopMin (x :: xs) ≠ none := by
  cases h : pqPopMin xs with
  | none => simp [pqPopMin, h]
  | some m =>
    simp only [pqPopMin, h]
    split <;> simp

/-- The reconstruction loop of `ShortestPath` can only produce a path, the
`TargetNotReachable` error, or diverge — never a queue error. -/
theorem reconstruct_ne_queueError {K : Type} [DecidableEq K]
    (bp : K → Option K) (s : K) :
    ∀ (fuel : Nat) (c : K) (p : List K),
      reconstruct bp s fuel c p ≠ some (.error .queueError) := by
  intro fuel
  induction fuel with
  | zero => intro c p; simp [reconstruct]
  | succ f ih =>
    intro c p
    simp only [reconstruct]
    split
    · simp
    · cases hbp : bp c with
      | none => simp
      | some u => exact ih u (u :: p)

/-- The BFS loop of `FindAllPaths` never reaches its `QueueError` branch:
every pop happens under the `queue.Len() > 0` guard. -/
theorem faLoop_ne_queueError (g : Graph String) (t : String) :
    ∀ (fuel : Nat) (q : List (String × W)) (paths : List String),
      faLoop g t fuel q paths ≠ some (.error .queueError) := by
  intro fuel
  induction fuel with
  | zero => intro q paths; simp [faLoop]
  | succ f ih =>
    intro q paths
    cases q with
    | nil => simp [faLoop]
    | cons x xs =>
      simp only [faLoop]
      rw [if_pos (by simp : (x :: xs).length > 0)]
      cases hpop : pqPopMin (x :: xs) with
      | none => exact absurd hpop (pqPopMin_cons_ne_none x xs)
      | some r =>
        rcases r with ⟨⟨path, pr⟩, rest⟩
        simp only []
        split
        · exact ih _ _
        · exact ih _ _

theorem lookupList_mem {K β : Type} [DecidableEq K] :
    ∀ (l : List (K × β)) (k : K) (b : β), lookupList l k = some b → (k, b) ∈ l := by
  intro l
  induction l with
  | nil => intro k b h; exact absurd h (by simp [lookupList])
  | cons a t ih =>
    intro k b h
    rw [lookupList] at h
    by_cases hk : a.1 = k
    · rw [if_pos hk] at h
      injection h with hb
      have hka : (k, b) = a := by rw [← hk, ← hb]
      rw [hka]
      exact List.mem_cons_self a t
    · rw [if_neg hk] at h
      exact List.mem_cons_of_mem a (ih k b h)

theorem lookupList_eq_none {K β : Type} [DecidableEq K] :
    ∀ (l : List (K × β)) (k : K), k ∉ l.map Prod.fst → lookupList l k = none := by
  intro l
  induction l with
  | nil => intro k _; rfl
  | cons a t ih =>
    intro k hk
    rw [List.map_cons, List.mem_cons] at hk
    push_neg at hk
    rw [lookupList, if_neg (fun h => hk.1 h.symm)]
    exact ih k hk.2

/-- On a well-formed graph the predecessor snapshot contains the converse of
every adjacency edge. -/
theorem adjOf_mem_predOf {K : Type} [DecidableEq K] {g : Graph K}
    (hwf : g.Wf) {u v : K} {e : Int} (h : (v, e) ∈ g.adjOf u) :
    (u, e) ∈ g.predOf v := by
  unfold Graph.adjOf at h
  cases hl : lookupList g.adj u with
  | none => rw [hl] at h; exact absurd h (List.not_mem_nil _)
  | some l =>
    rw [hl] at h
    exact hwf.2.2.2.2.2.1 (u, l) (lookupList_mem g.adj u l hl) (v, e) h |>.2

theorem hasEdge_to_hasPred {K : Type} [DecidableEq K] {g : Graph K}
    (hwf : g.Wf) {u v : K} (h : g.hasEdge u v) : g.hasPred v u := by
  rcases (hasEdge_iff g u v).mp h with ⟨e, he⟩
  exact (hasPred_iff g v u).mpr ⟨e, adjOf_mem_predOf hwf he⟩

theorem ReachP.trans {K : Type} [DecidableEq K] {g : Graph K} {s c d : K}
    (h1 : ReachP g s c) (h2 : ReachP g c d) : ReachP g s d := by
  induction h2 with
  | refl => exact h1
  | step _ hp ih => exact ih.step hp

/-- A backward walk that moves at all starts with one predecessor step. -/
theorem reachP_head {K : Type} [DecidableEq K] {g : Graph K} {c t : K}
    (h : ReachP g c t) : c = t ∨ ∃ d, g.hasPred c d ∧ ReachP g d t := by
  induction h with
  | refl => exact Or.inl rfl
  | step _ hp ih =>
    rcases ih with rfl | ⟨d, hd, hr⟩
    · exact Or.inr ⟨_, hp, ReachP.refl⟩
    · exact Or.inr ⟨d, hd, hr.step hp⟩

/-- A forward path, read backwards, is a predecessor walk (needs the
converse entries of a well-formed graph). -/
theorem isPathF_to_reachP {K : Type} [DecidableEq K] {g : Graph K}
    (hwf : g.Wf) :
    ∀ (p : List K) (a b : K), IsPathF g a b p → ReachP g b a := by
  intro p
  induction p with
  | nil => intro a b h; exact h.elim
  | cons v rest ih =>
    intro a b h
    cases rest with
    | nil =>
      rcases h with ⟨rfl, rfl⟩
      exact ReachP.refl
    | cons w rest2 =>
      rcases h with ⟨rfl, he, hp⟩
      exact (ih w b hp).step (hasEdge_to_hasPred hwf he)

/-- If the visited set is predecessor-closed into `V ∪ S`, a backward walk
from inside `V` to a vertex outside `V` must pass through an unvisited
member of `S` that still reaches the endpoint. -/
theorem reachP_exits {K : Type} [DecidableEq K] (g : Graph K) {V S : List K}
    (hclosed : ∀ x ∈ V, ∀ y, g.hasPred x y → y ∈ V ∨ y ∈ S) {c t : K}
    (hc : c ∈ V) (hr : ReachP g c t) :
    t ∉ V → ∃ x ∈ S, x ∉ V ∧ ReachP g x t := by
  induction hr with
  | refl => intro ht; exact absurd hc ht
  | @step m d hm hp ih =>
    intro hd
    by_cases hmv : m ∈ V
    · rcases hclosed m hmv d hp with hdv | hds
      · exact absurd hdv hd
      · exact ⟨d, hds, hd, ReachP.refl⟩
    · rcases ih hmv with ⟨x, hxs, hxv, hxr⟩
      exact ⟨x, hxs, hxv, hxr.step hp⟩

/-- Accounting for the visited-sum part of the DFS potential: visiting an
unvisited vertex releases exactly its predecessor count. -/
theorem sum_filter_visit {K : Type} [DecidableEq K] (f : K → Nat) (c : K)
    (vis : List K) (hc : c ∉ vis) :
    ∀ (l : List K), l.Nodup →
      (if c ∈ l then f c else 0) +
          ((l.filter (fun v => v ∉ c :: vis)).map f).sum =
        ((l.filter (fun v => v ∉ vis)).map f).sum := by
  intro l
  induction l with
  | nil => intro _; simp
  | cons a t ih =>
    intro hnd
    rcases List.nodup_cons.mp hnd with ⟨hat, hnt⟩
    by_cases hac : a = c
    · subst hac
      have hdrop : (a :: t).filter (fun v => decide (v ∉ a :: vis)) =
          t.filter (fun v => decide (v ∉ a :: vis)) := by
        apply List.filter_cons_of_neg
        simp
      have hkeep : (a :: t).filter (fun v => decide (v ∉ vis)) =
          a :: t.filter (fun v => decide (v ∉ vis)) := by
        apply List.filter_cons_of_pos
        simpa using hc
      have hfilter : t.filter (fun v => decide (v ∉ a :: vis)) =
          t.filter (fun v => decide (v ∉ vis)) := by
        apply List.filter_congr
        intro v hv
        have hva : ¬ v = a := fun h => hat (h ▸ hv)
        simp [hva]
      rw [hdrop, hkeep, hfilter, if_pos (List.mem_cons_self a t)]
      simp
    · have hcmem : (if c ∈ a :: t then f c else 0) =
          (if c ∈ t then f c else 0) := by
        by_cases hct : c ∈ t
        · rw [if_pos hct, if_pos (List.mem_cons_of_mem a hct)]
        · rw [if_neg hct, if_neg ?_]
          rw [List.mem_cons]
          rintro (h | h)
          · exact hac h.symm
          · exact hct h
      by_cases hav : a ∈ vis
      · have h2 : (a :: t).filter (fun v => decide (v ∉ c :: vis)) =
            t.filter (fun v => decide (v ∉ c :: vis)) := by
          apply List.filter_cons_of_neg
          simp [List.mem_cons_of_mem c hav]
        have h3 : (a :: t).filter (fun v => decide (v ∉ vis)) =
            t.filter (fun v => decide (v ∉ vis)) := by
          apply List.filter_cons_of_neg
          simpa using hav
        rw [h2, h3, hcmem]
        exact ih hnt
      · have hacv : a ∉ c :: vis := by
          rw [List.mem_cons]
          rintro (h | h)
          · exact hac h
          · exact hav h
        have h2 : (a :: t).filter (fun v => decide (v ∉ c :: vis)) =
            a :: t.filter (fun v => decide (v ∉ c :: vis)) := by
          apply List.filter_cons_of_pos
          simpa using hacv
        have h3 : (a :: t).filter (fun v => decide (v ∉ vis)) =
            a :: t.filter (fun v => decide (v ∉ vis)) := by
          apply List.filter_cons_of_pos
          simpa using hav
        rw [h2, h3, hcmem, List.map_cons, List.sum_cons, List.map_cons,
          List.sum_cons]
        have hih := ih hnt
        omega

theorem cdfsPotential_pop {K : Type} [DecidableEq K] (g : Graph K)
    (c : K) (st vis : List K) :
    cdfsPotential g st vis + 1 = cdfsPotential g (c :: st) vis := by
  unfold cdfsPotential
  simp [List.length_cons]
  omega

theorem cdfsPotential_visit {K : Type} [DecidableEq K] (g : Graph K)
    (c : K) (st vis : List K) (hc : c ∉ vis) :
    cdfsPotential g (((g.predOf c).map Prod.fst) ++ st) (c :: vis) <
      cdfsPotential g (c :: st) vis := by
  unfold cdfsPotential
  have hkey := sum_filter_visit (fun v => (g.predOf v).length) c vis hc
    g.pkeys (List.nodup_dedup _)
  by_cases hcp : c ∈ g.pkeys
  · rw [if_pos hcp] at hkey
    simp only [] at hkey
    simp only [List.length_append, List.length_map, List.length_cons]
    omega
  · rw [if_neg hcp] at hkey
    have hnone : lookupList g.pred c = none := by
      apply lookupList_eq_none
      intro hmem
      exact hcp (List.mem_dedup.mpr hmem)
    have hzero : (g.predOf c).length = 0 := by
      unfold Graph.predOf
      rw [hnone]
      rfl
    simp only [List.length_append, List.length_map, List.length_cons]
    omega

/-- Correctness of the DFS loop of `CreatesCycle`: with enough fuel, a
predecessor-closed visited set not containing the target, the loop returns
`true` exactly when some stack element reaches the target backward. -/
theorem cdfs_correct {K : Type} [DecidableEq K] (g : Graph K) (target : K) :
    ∀ (fuel : Nat) (stack visited : List K),
      cdfsPotential g stack visited < fuel →
      (∀ x ∈ visited, ∀ y, g.hasPred x y → y ∈ visited ∨ y ∈ stack) →
      target ∉ visited →
      (cdfs g target fuel stack visited = some true ↔
        ∃ x ∈ stack, ReachP g x target) := by
  intro fuel
  induction fuel with
  | zero =>
    intro stack visited hpot
    exact absurd hpot (Nat.not_lt_zero _)
  | succ f ih =>
    intro stack visited hpot hclosed htarget
    cases stack with
    | nil => simp [cdfs]
    | cons c st =>
      by_cases hcv : c ∈ visited
      · rw [show cdfs g target (f + 1) (c :: st) visited =
            cdfs g target f st visited from by simp [cdfs, hcv]]
        have hpot' : cdfsPotential g st visited < f := by
          have := cdfsPotential_pop g c st visited
          omega
        have hclosed' : ∀ x ∈ visited, ∀ y, g.hasPred x y →
            y ∈ visited ∨ y ∈ st := by
          intro x hx y hy
          rcases hclosed x hx y hy with h | h
          · exact Or.inl h
          · rcases List.mem_cons.mp h with rfl | h'
            · exact Or.inl hcv
            · exact Or.inr h'
        rw [ih st visited hpot' hclosed' htarget]
        constructor
        · rintro ⟨x, hx, hr⟩
          exact ⟨x, List.mem_cons_of_mem c hx, hr⟩
        · rintro ⟨x, hx, hr⟩
          rcases List.mem_cons.mp hx with rfl | hx'
          · rcases reachP_exits g hclosed' hcv hr htarget with ⟨y, hys, hyv, hyr⟩
            exact ⟨y, hys, hyr⟩
          · exact ⟨x, hx', hr⟩
      · by_cases hct : c = target
        · subst hct
          rw [show cdfs g c (f + 1) (c :: st) visited = some true from by
            simp [cdfs, hcv]]
          exact iff_of_true rfl ⟨c, List.mem_cons_self c st, ReachP.refl⟩
        · rw [show cdfs g target (f + 1) (c :: st) visited =
              cdfs g target f (((g.predOf c).map Prod.fst) ++ st)
                (c :: visited) from by simp [cdfs, hcv, hct]]
          have hpot' : cdfsPotential g (((g.predOf c).map Prod.fst) ++ st)
              (c :: visited) < f := by
            have h1 := cdfsPotential_visit g c st visited hcv
            have h2 := cdfsPotential_pop g c st visited
            omega
          have hclosed' : ∀ x ∈ c :: visited, ∀ y, g.hasPred x y →
              y ∈ c :: visited ∨ y ∈ ((g.predOf c).map Prod.fst) ++ st := by
            intro x hx y hy
            rcases List.mem_cons.mp hx with rfl | hx'
            · exact Or.inr (List.mem_append_left st hy)
            · rcases hclosed x hx' y hy with h | h
              · exact Or.inl (List.mem_cons_of_mem c h)
              · rcases List.mem_cons.mp h with rfl | h'
                · exact Or.inl (List.mem_cons_self y visited)
                · exact Or.inr (List.mem_append_right _ h')
          have htarget' : target ∉ c :: visited := by
            rw [List.mem_cons]
            rintro (rfl | h)
            · exact hct rfl
            · exact htarget h
          rw [ih _ _ hpot' hclosed' htarget']
          constructor
          · rintro ⟨x, hx, hr⟩
            rcases List.mem_append.mp hx with hx' | hx'
            · refine ⟨c, List.mem_cons_self c st, ReachP.trans ?_ hr⟩
              exact ReachP.step ReachP.refl hx'
            · exact ⟨x, List.mem_cons_of_mem c hx', hr⟩
          · rintro ⟨x, hx, hr⟩
            rcases List.mem_cons.mp hx with rfl | hx'
            · rcases reachP_head hr with rfl | ⟨d, hd, hdr⟩
              · exact absurd rfl hct
              · exact ⟨d, List.mem_append_left st hd, hdr⟩
            · exact ⟨x, List.mem_append_right _ hx', hr⟩

/-! ## Path and cost lemmas -/

theorem lookup_of_mem_nodup {K β : Type} [DecidableEq K] :
    ∀ (l : List (K × β)) (k : K) (b : β), (l.map Prod.fst).Nodup →
      (k, b) ∈ l → lookupList l k = some b := by
  intro l
  induction l with
  | nil => intro k b _ h; exact absurd h (List.not_mem_nil _)
  | cons a t ih =>
    intro k b hnd hmem
    rw [List.map_cons] at hnd
    rcases List.nodup_cons.mp hnd with ⟨hat, hnt⟩
    rcases List.mem_cons.mp hmem with rfl | hmem'
    · rw [lookupList, if_pos rfl]
    · have hk : k ∈ t.map Prod.fst := List.mem_map.mpr ⟨(k, b), hmem', rfl⟩
      have hne : ¬ a.1 = k := fun h => hat (by rw [h]; exact hk)
      rw [lookupList, if_neg hne, ih k b hnt hmem']

theorem mem_adjOf_adj {K : Type} [DecidableEq K] {g : Graph K} {u : K}
    {p : K × Int} (h : p ∈ g.adjOf u) : ∃ l, (u, l) ∈ g.adj ∧ p ∈ l := by
  unfold Graph.adjOf at h
  cases hl : lookupList g.adj u with
  | none => rw [hl] at h; exact absurd h (List.not_mem_nil _)
  | some l => rw [hl] at h; exact ⟨l, lookupList_mem g.adj u l hl, h⟩

theorem mem_adjOf_key {K : Type} [DecidableEq K] {g : Graph K} (hwf : g.Wf)
    {u : K} {p : K × Int} (h : p ∈ g.adjOf u) : p.1 ∈ g.keys := by
  rcases mem_adjOf_adj h with ⟨l, hl, hp⟩
  exact (hwf.2.2.2.2.2.1 (u, l) hl p hp).1

theorem mem_adjOf_nonneg {K : Type} [DecidableEq K] {g : Graph K}
    (hnn : NonnegWeights g) {u : K} {p : K × Int} (h : p ∈ g.adjOf u) :
    0 ≤ effW g.traits.isWeighted p.2 := by
  rcases mem_adjOf_adj h with ⟨l, hl, hp⟩
  exact hnn (u, l) hl p hp

theorem adjOf_fst_nodup {K : Type} [DecidableEq K] {g : Graph K}
    (hwf : g.Wf) (u : K) : ((g.adjOf u).map Prod.fst).Nodup := by
  unfold Graph.adjOf
  cases hl : lookupList g.adj u with
  | none => simp
  | some l => exact hwf.2.2.2.1 (u, l) (lookupList_mem g.adj u l hl)

theorem edgeWeight_of_mem {K : Type} [DecidableEq K] {g : Graph K}
    (hwf : g.Wf) {u x : K} {e : Int} (h : (x, e) ∈ g.adjOf u) :
    edgeWeight g u x = e := by
  unfold edgeWeight
  rw [lookup_of_mem_nodup (g.adjOf u) x e (adjOf_fst_nodup hwf u) h]
  rfl

theorem pathCost_nil {K : Type} [DecidableEq K] (g : Graph K) :
    pathCost g [] = 0 := rfl

theorem pathCost_single {K : Type} [DecidableEq K] (g : Graph K) (v : K) :
    pathCost g [v] = 0 := rfl

theorem pathCost_cons₂ {K : Type} [DecidableEq K] (g : Graph K) (u v : K)
    (r : List K) :
    pathCost g (u :: v :: r) =
      effW g.traits.isWeighted (edgeWeight g u v) + pathCost g (v :: r) := rfl

theorem isPathF_split {K : Type} [DecidableEq K] {g : Graph K} :
    ∀ (l1 : List K) (y : K) (l2 : List K) (s t : K),
      IsPathF g s t (l1 ++ y :: l2) →
      IsPathF g s y (l1 ++ [y]) ∧ IsPathF g y t (y :: l2) := by
  intro l1
  induction l1 with
  | nil =>
    intro y l2 s t h
    have hy : y = s := by cases l2 <;> exact h.1
    subst hy
    exact ⟨⟨rfl, rfl⟩, h⟩
  | cons a l1' ih =>
    intro y l2 s t h
    cases l1' with
    | nil =>
      rcases h with ⟨rfl, he, hrest⟩
      exact ⟨⟨rfl, he, rfl, rfl⟩, hrest⟩
    | cons b l1'' =>
      rcases h with ⟨rfl, he, hrest⟩
      rcases ih y l2 b t hrest with ⟨h1, h2⟩
      exact ⟨⟨rfl, he, h1⟩, h2⟩

theorem isPathF_snoc_edge {K : Type} [DecidableEq K] {g : Graph K} :
    ∀ (p : List K) (s v x : K), IsPathF g s v p → g.hasEdge v x →
      IsPathF g s x (p ++ [x]) := by
  intro p
  induction p with
  | nil => intro s v x h _; exact h.elim
  | cons a r ih =>
    intro s v x h he
    cases r with
    | nil =>
      rcases h with ⟨rfl, rfl⟩
      exact ⟨rfl, he, rfl, rfl⟩
    | cons b r' =>
      rcases h with ⟨rfl, hab, hrest⟩
      exact ⟨rfl, hab, ih b v x hrest he⟩

theorem isPathF_mem_keys {K : Type} [DecidableEq K] {g : Graph K}
    (hwf : g.Wf) :
    ∀ (p : List K) (s t : K), s ∈ g.keys → IsPathF g s t p →
      ∀ z ∈ p, z ∈ g.keys := by
  intro p
  induction p with
  | nil => intro s t _ h; exact h.elim
  | cons a r ih =>
    intro s t hs h z hz
    cases r with
    | nil =>
      rcases h with ⟨rfl, rfl⟩
      rcases List.mem_singleton.mp hz with rfl
      exact hs
    | cons b r' =>
      rcases h with ⟨rfl, hab, hrest⟩
      have hb : b ∈ g.keys := by
        rcases (hasEdge_iff g a b).mp hab with ⟨e, he⟩
        exact mem_adjOf_key hwf he
      rcases List.mem_cons.mp hz with rfl | hz'
      · exact hs
      · exact ih b t hb hrest z hz'

theorem isPathF_target_edge {K : Type} [DecidableEq K] {g : Graph K} :
    ∀ (p : List K) (s t : K), IsPathF g s t p →
      t = s ∨ ∃ u, g.hasEdge u t := by
  intro p
  induction p with
  | nil => intro s t h; exact h.elim
  | cons a r ih =>
    intro s t h
    cases r with
    | nil => rcases h with ⟨rfl, rfl⟩; exact Or.inl rfl
    | cons b r' =>
      rcases h with ⟨rfl, hab, hrest⟩
      rcases ih b t hrest with rfl | hu
      · exact Or.inr ⟨a, hab⟩
      · exact Or.inr hu

theorem pathCost_nonneg {K : Type} [DecidableEq K] {g : Graph K}
    (hwf : g.Wf) (hnn : NonnegWeights g) :
    ∀ (p : List K) (a b : K), IsPathF g a b p → 0 ≤ pathCost g p := by
  intro p
  induction p with
  | nil => intro a b h; exact h.elim
  | cons u r ih =>
    intro a b h
    cases r with
    | nil => rw [pathCost_single]
    | cons v r' =>
      rcases h with ⟨rfl, huv, hrest⟩
      have h1 : 0 ≤ effW g.traits.isWeighted (edgeWeight g u v) := by
        rcases (hasEdge_iff g u v).mp huv with ⟨e, he⟩
        rw [edgeWeight_of_mem hwf he]
        exact mem_adjOf_nonneg hnn he
      have h2 := ih v b hrest
      rw [pathCost_cons₂]
      omega

theorem pathCost_split {K : Type} [DecidableEq K] (g : Graph K) :
    ∀ (l1 : List K) (y : K) (l2 : List K),
      pathCost g (l1 ++ y :: l2) =
        pathCost g (l1 ++ [y]) + pathCost g (y :: l2) := by
  intro l1
  induction l1 with
  | nil =>
    intro y l2
    rw [List.nil_append, List.nil_append, pathCost_single]
    omega
  | cons a l1' ih =>
    intro y l2
    cases l1' with
    | nil =>
      rw [show ([a] ++ y :: l2) = a :: y :: l2 from rfl,
        show ([a] ++ [y]) = [a, y] from rfl, pathCost_cons₂, pathCost_cons₂,
        pathCost_single]
      omega
    | cons b l1'' =>
      rw [show ((a :: b :: l1'') ++ y :: l2) = a :: ((b :: l1'') ++ y :: l2)
          from rfl,
        show ((a :: b :: l1'') ++ [y]) = a :: ((b :: l1'') ++ [y]) from rfl,
        show ((b :: l1'') ++ y :: l2) = b :: (l1'' ++ y :: l2) from rfl,
        show ((b :: l1'') ++ [y]) = b :: (l1'' ++ [y]) from rfl,
        pathCost_cons₂, pathCost_cons₂]
      have hih := ih y l2
      rw [show ((b :: l1'') ++ y :: l2) = b :: (l1'' ++ y :: l2) from rfl,
        show ((b :: l1'') ++ [y]) = b :: (l1'' ++ [y]) from rfl] at hih
      omega

theorem pathCost_snoc {K : Type} [DecidableEq K] {g : Graph K} :
    ∀ (p : List K) (s v x : K), IsPathF g s v p →
      pathCost g (p ++ [x]) =
        pathCost g p + effW g.traits.isWeighted (edgeWeight g v x) := by
  intro p
  induction p with
  | nil => intro s v x h; exact h.elim
  | cons a r ih =>
    intro s v x h
    cases r with
    | nil =>
      rcases h with ⟨rfl, rfl⟩
      rw [show ([a] ++ [x]) = [a, x] from rfl, pathCost_cons₂,
        pathCost_single, pathCost_single]
      omega
    | cons b r' =>
      rcases h with ⟨rfl, hab, hrest⟩
      rw [show ((a :: b :: r') ++ [x]) = a :: ((b :: r') ++ [x]) from rfl,
        show ((b :: r') ++ [x]) = b :: (r' ++ [x]) from rfl, pathCost_cons₂,
        pathCost_cons₂]
      have hih := ih b v x hrest
      rw [show ((b :: r') ++ [x]) = b :: (r' ++ [x]) from rfl] at hih
      omega

theorem pathCost_unweighted {K : Type} [DecidableEq K] {g : Graph K}
    (hUnw : g.traits.isWeighted = false) :
    ∀ (p : List K), p ≠ [] → pathCost g p = (p.length : ℤ) - 1 := by
  intro p
  induction p with
  | nil => intro h; exact absurd rfl h
  | cons a r ih =>
    intro _
    cases r with
    | nil => rw [pathCost_single]; simp
    | cons b r' =>
      rw [pathCost_cons₂, show effW g.traits.isWeighted (edgeWeight g a b) = 1
        from by rw [hUnw]; rfl, ih (by simp)]
      simp [List.length_cons]
      omega

theorem exists_first_not_mem {K : Type} [DecidableEq K] :
    ∀ (p : List K) (S : List K) (z : K), z ∈ p → z ∉ S →
      ∃ pre y suf, p = pre ++ y :: suf ∧ y ∉ S ∧ ∀ u ∈ pre, u ∈ S := by
  intro p
  induction p with
  | nil => intro S z hz _; exact absurd hz (List.not_mem_nil z)
  | cons a r ih =>
    intro S z hz hzS
    by_cases haS : a ∈ S
    · have hz' : z ∈ r := by
        rcases List.mem_cons.mp hz with rfl | h
        · exact absurd haS hzS
        · exact h
      rcases ih S z hz' hzS with ⟨pre, y, suf, heq, hy, hpre⟩
      refine ⟨a :: pre, y, suf, by rw [heq]; rfl, hy, ?_⟩
      intro u hu
      rcases List.mem_cons.mp hu with rfl | h
      · exact haS
      · exact hpre u h
    · exact ⟨[], a, r, rfl, haS, by simp⟩

/-! ## Priority-queue and relaxation lemmas -/

/-- A successful pop returns a minimal-priority element and the rest of the
queue in order. -/
theorem pqPopMin_spec {α : Type} :
    ∀ (q : List (α × W)) (x : α × W) (rest : List (α × W)),
      pqPopMin q = some (x, rest) →
      ∃ l1 l2, q = l1 ++ x :: l2 ∧ rest = l1 ++ l2 ∧ ∀ y ∈ q, x.2 ≤ y.2 := by
  intro q
  induction q with
  | nil => intro x rest h; exact absurd h (by simp [pqPopMin])
  | cons a t ih =>
    intro x rest h
    rw [pqPopMin] at h
    cases hp : pqPopMin t with
    | none =>
      rw [hp] at h
      have ht : t = [] := by
        cases t with
        | nil => rfl
        | cons b t2 => exact absurd hp (pqPopMin_cons_ne_none b t2)
      injection h with h1
      injection h1 with hx hrest
      subst hx
      subst hrest
      subst ht
      refine ⟨[], [], rfl, rfl, ?_⟩
      intro y hy
      rcases List.mem_singleton.mp hy with rfl
      exact le_refl _
    | some m =>
      rw [hp] at h
      rcases m with ⟨mx, mrest⟩
      rcases ih mx mrest hp with ⟨l1, l2, hq, hr, hmin⟩
      have h2 : (if a.2 ≤ mx.2 then some (a, t) else some (mx, a :: mrest)) =
          some (x, rest) := h
      clear h
      by_cases hle : a.2 ≤ mx.2
      · rw [if_pos hle] at h2
        injection h2 with h1
        injection h1 with hx hrest
        subst hx
        subst hrest
        refine ⟨[], t, rfl, rfl, ?_⟩
        intro y hy
        rcases List.mem_cons.mp hy with rfl | hy2
        · exact le_refl _
        · exact le_trans hle (hmin y hy2)
      · rw [if_neg hle] at h2
        injection h2 with h1
        injection h1 with hx hrest
        subst hx
        subst hrest
        refine ⟨a :: l1, l2, by rw [hq]; rfl, by rw [hr]; rfl, ?_⟩
        intro y hy
        rcases List.mem_cons.mp hy with rfl | hy2
        · exact le_of_not_le hle
        · exact hmin y hy2

theorem pqUpdate_map_fst {α : Type} [DecidableEq α] (q : List (α × W))
    (a : α) (p : W) : (pqUpdate q a p).map Prod.fst = q.map Prod.fst := by
  unfold pqUpdate
  induction q with
  | nil => rfl
  | cons y t ih =>
    simp only [List.map_cons]
    rw [ih]
    congr 1
    by_cases h : y.1 = a
    · rw [if_pos h]
    · rw [if_neg h]

theorem pqUpdate_mem {α : Type} [DecidableEq α] {q : List (α × W)} {a : α}
    {p : W} {y : α × W} (h : y ∈ pqUpdate q a p) :
    (y ∈ q ∧ y.1 ≠ a) ∨ (y.1 = a ∧ y.2 = p) := by
  unfold pqUpdate at h
  rcases List.mem_map.mp h with ⟨z, hz, hzy⟩
  by_cases hza : z.1 = a
  · rw [if_pos hza] at hzy
    right
    rw [← hzy]
    exact ⟨hza, rfl⟩
  · rw [if_neg hza] at hzy
    left
    rw [← hzy]
    exact ⟨hz, hza⟩

/-- Unfolding equation for one relaxation step. -/
theorem relaxList_cons {K : Type} [DecidableEq K] (weighted : Bool) (v : K)
    (hasInf : Bool) (a : K) (e : Int) (es : List (K × Int)) (w : K → W)
    (bp : K → Option K) (q : List (K × W)) :
    relaxList weighted v hasInf ((a, e) :: es) w bp q =
      if w v + (effW weighted e : W) < w a ∧ hasInf = false then
        relaxList weighted v hasInf es (upd w a (w v + (effW weighted e : W)))
          (upd bp a (some v)) (pqUpdate q a (w v + (effW weighted e : W)))
      else relaxList weighted v hasInf es w bp q := rfl

/-- A relaxation pass with an infinite popped distance changes nothing
(lines 100, 114: `hasInfiniteWeight` blocks every update). -/
theorem relaxList_inf {K : Type} [DecidableEq K] (weighted : Bool) (v : K) :
    ∀ (es : List (K × Int)) (w : K → W) (bp : K → Option K)
      (q : List (K × W)),
      relaxList weighted v true es w bp q = (w, bp, q) := by
  intro es
  induction es with
  | nil => intro w bp q; rfl
  | cons pe tl ih =>
    intro w bp q
    rcases pe with ⟨a, e⟩
    rw [relaxList_cons, if_neg (by simp)]
    exact ih w bp q

/-- Pointwise characterization of a full relaxation pass with a finite
popped distance and non-negative effective weights: the popped vertex's own
distance is untouched; distances never increase; every change is a strict
improvement through an edge of the pass, recorded in `bestPredecessors`;
after the pass every processed edge is relaxed; the queue keys are
unchanged; and priorities stay in sync with distances. -/
theorem relaxList_spec {K : Type} [DecidableEq K] (weighted : Bool) (v : K) :
    ∀ (es : List (K × Int)) (w : K → W) (bp : K → Option K)
      (q : List (K × W)),
      (∀ p ∈ es, 0 ≤ effW weighted p.2) →
      (relaxList weighted v false es w bp q).1 v = w v ∧
      (∀ x, (relaxList weighted v false es w bp q).1 x ≤ w x) ∧
      (∀ x,
        ((relaxList weighted v false es w bp q).1 x = w x ∧
          (relaxList weighted v false es w bp q).2.1 x = bp x) ∨
        (∃ e, (x, e) ∈ es ∧
          (relaxList weighted v false es w bp q).2.1 x = some v ∧
          (relaxList weighted v false es w bp q).1 x =
            w v + (effW weighted e : W) ∧
          (relaxList weighted v false es w bp q).1 x < w x)) ∧
      (∀ p ∈ es, (relaxList weighted v false es w bp q).1 p.1 ≤
        w v + (effW weighted p.2 : W)) ∧
      ((relaxList weighted v false es w bp q).2.2.map Prod.fst =
        q.map Prod.fst) ∧
      ((∀ y ∈ q, y.2 = w y.1) →
        ∀ y ∈ (relaxList weighted v false es w bp q).2.2,
          y.2 = (relaxList weighted v false es w bp q).1 y.1) := by
  intro es
  induction es with
  | nil =>
    intro w bp q _
    refine ⟨rfl, fun x => le_refl _, fun x => Or.inl ⟨rfl, rfl⟩, ?_, rfl, ?_⟩
    · intro p hp; exact absurd hp (List.not_mem_nil _)
    · intro hsync; exact hsync
  | cons pe tl ih =>
    intro w bp q hnn
    rcases pe with ⟨a, e⟩
    have hnn_head : 0 ≤ effW weighted e := hnn (a, e) (List.mem_cons_self _ _)
    have hnn_tl : ∀ p ∈ tl, 0 ≤ effW weighted p.2 :=
      fun p hp => hnn p (List.mem_cons_of_mem _ hp)
    by_cases hlt : w v + (effW weighted e : W) < w a
    · -- update branch
      have hva : ¬ v = a := by
        intro hveq
        rw [← hveq] at hlt
        have hge : w v ≤ w v + (effW weighted e : W) :=
          le_add_of_nonneg_right (by exact_mod_cast hnn_head)
        exact absurd hlt (not_lt.mpr hge)
      rw [relaxList_cons, if_pos ⟨hlt, rfl⟩]
      have hIH := ih (upd w a (w v + (effW weighted e : W)))
        (upd bp a (some v))
        (pqUpdate q a (w v + (effW weighted e : W))) hnn_tl
      rcases hIH with ⟨ih1, ih2, ih3, ih4, ih5, ih6⟩
      have hw1v : upd w a (w v + (effW weighted e : W)) v = w v := by
        unfold upd
        rw [if_neg hva]
      have hw1le : ∀ x, upd w a (w v + (effW weighted e : W)) x ≤ w x := by
        intro x
        unfold upd
        by_cases hx : x = a
        · rw [if_pos hx, hx]
          exact le_of_lt hlt
        · rw [if_neg hx]
      refine ⟨?_, ?_, ?_, ?_, ?_, ?_⟩
      · rw [ih1, hw1v]
      · intro x
        exact le_trans (ih2 x) (hw1le x)
      · intro x
        rcases ih3 x with ⟨he1, he2⟩ | ⟨e2, hmem, hbp2, hval2, hlt2⟩
        · by_cases hx : x = a
          · subst hx
            refine Or.inr ⟨e, List.mem_cons_self _ _, ?_, ?_, ?_⟩
            · rw [he2]
              unfold upd
              rw [if_pos rfl]
            · rw [he1]
              unfold upd
              rw [if_pos rfl]
            · rw [he1]
              unfold upd
              rw [if_pos rfl]
              exact hlt
          · left
            constructor
            · rw [he1]
              unfold upd
              rw [if_neg hx]
            · rw [he2]
              unfold upd
              rw [if_neg hx]
        · refine Or.inr ⟨e2, List.mem_cons_of_mem _ hmem, hbp2, ?_, ?_⟩
          · rw [hval2, hw1v]
          · exact lt_of_lt_of_le hlt2 (hw1le x)
      · intro p hp
        rcases List.mem_cons.mp hp with rfl | hp2
        · have hle2 := ih2 a
          rw [show upd w a (w v + (effW weighted e : W)) a =
              w v + (effW weighted e : W) from by unfold upd; rw [if_pos rfl]]
            at hle2
          exact hle2
        · have hle2 := ih4 p hp2
          rw [hw1v] at hle2
          exact hle2
      · rw [ih5, pqUpdate_map_fst]
      · intro hsync
        apply ih6
        intro y hy
        rcases pqUpdate_mem hy with ⟨hyq, hy1⟩ | ⟨hy1, hy2⟩
        · rw [hsync y hyq]
          unfold upd
          rw [if_neg hy1]
        · rw [hy2]
          unfold upd
          rw [if_pos hy1]
    · -- no-update branch
      rw [relaxList_cons, if_neg (fun hc => hlt hc.1)]
      have hIH := ih w bp q hnn_tl
      rcases hIH with ⟨ih1, ih2, ih3, ih4, ih5, ih6⟩
      refine ⟨ih1, ih2, ?_, ?_, ih5, ih6⟩
      · intro x
        rcases ih3 x with h | ⟨e2, hmem, h1, h2, h3⟩
        · exact Or.inl h
        · exact Or.inr ⟨e2, List.mem_cons_of_mem _ hmem, h1, h2, h3⟩
      · intro p hp
        rcases List.mem_cons.mp hp with rfl | hp2
        · exact le_trans (ih2 a) (le_of_not_lt hlt)
        · exact ih4 p hp2

/-! ## The Dijkstra invariant -/

theorem isPathF_target_mem {K : Type} [DecidableEq K] {g : Graph K} :
    ∀ (p : List K) (s t : K), IsPathF g s t p → t ∈ p := by
  intro p
  induction p with
  | nil => intro s t h; exact h.elim
  | cons a r ih =>
    intro s t h
    cases r with
    | nil =>
      rcases h with ⟨rfl, rfl⟩
      exact List.mem_singleton.mpr rfl
    | cons b r2 =>
      rcases h with ⟨rfl, _, hrest⟩
      exact List.mem_cons_of_mem a (ih b t hrest)

/-- Along a path whose non-final vertices are all settled, the endpoint's
distance is bounded by the start's distance plus the path cost (repeated
application of `settledRelaxed`). -/
theorem dinv_relax_chain {K : Type} [DecidableEq K] {g : Graph K} {s : K}
    {S : List K} {q : List (K × W)} {w : K → W} {bp : K → Option K}
    (hwf : g.Wf) (hinv : DInv g s S q w bp) :
    ∀ (ρ : List K) (a z : K), IsPathF g a z ρ →
      (∀ u ∈ ρ.dropLast, u ∈ S) → w z ≤ w a + (pathCost g ρ : W) := by
  intro ρ
  induction ρ with
  | nil => intro a z h; exact h.elim
  | cons u r ih =>
    intro a z h hdrop
    cases r with
    | nil =>
      rcases h with ⟨rfl, rfl⟩
      rw [pathCost_single]
      simp
    | cons b r2 =>
      rcases h with ⟨rfl, hub, hrest⟩
      have hu_in : u ∈ S :=
        hdrop u (show u ∈ u :: (b :: r2).dropLast from List.mem_cons_self _ _)
      rcases (hasEdge_iff g u b).mp hub with ⟨e, he⟩
      have hwb : w b ≤ w u + (effW g.traits.isWeighted e : W) := by
        have := hinv.settledRelaxed u hu_in (b, e) he
        exact this
      have hIH := ih b z hrest
        (fun x hx => hdrop x (List.mem_cons_of_mem u hx))
      have hcost : pathCost g (u :: b :: r2) =
          effW g.traits.isWeighted e + pathCost g (b :: r2) := by
        rw [pathCost_cons₂, edgeWeight_of_mem hwf he]
      calc w z ≤ w b + (pathCost g (b :: r2) : W) := hIH
        _ ≤ (w u + (effW g.traits.isWeighted e : W)) +
              (pathCost g (b :: r2) : W) := add_le_add_right hwb _
        _ = w u + (pathCost g (u :: b :: r2) : W) := by
            rw [hcost]
            push_cast
            rw [add_assoc]

/-- The invariant holds at loop entry (lines 72-96). -/
theorem dinv_init {K : Type} [DecidableEq K] (g : Graph K) (s : K)
    (hwf : g.Wf) (hsk : s ∈ g.keys) :
    DInv g s [] (g.keys.map (fun k => (k, initWeights g s k)))
      (initWeights g s) (fun _ => none) := by
  have hmapfst :
      ((g.keys.map (fun k => (k, initWeights g s k))).map Prod.fst) = g.keys := by
    rw [List.map_map]
    exact List.map_id g.keys
  have hcov : ∀ x ∈ g.keys,
      x ∈ (g.keys.map (fun k => (k, initWeights g s k))).map Prod.fst := by
    intro x hx
    rw [hmapfst]
    exact hx
  refine
    { nodupS := List.nodup_nil
      subS := by intro x hx; exact absurd hx (List.not_mem_nil x)
      itemsSub := by intro x hx; rw [hmapfst] at hx; exact hx
      itemsNodup := by rw [hmapfst]; exact hwf.1
      disj := by intro x hx; exact absurd hx (List.not_mem_nil x)
      cover := by intro x hx hq _; exact absurd (hcov x hx) hq
      sync := by
        intro y hy
        rcases List.mem_map.mp hy with ⟨k, _, rfl⟩
        rfl
      phase := Or.inl (by intro x hx hq; exact absurd (hcov x hx) hq)
      settledMin := by intro u hu; exact absurd hu (List.not_mem_nil u)
      settledRelaxed := by intro u hu; exact absurd hu (List.not_mem_nil u)
      settledOpt := by intro u hu; exact absurd hu (List.not_mem_nil u)
      realizable := by
        intro x hx hfin
        by_cases hxs : x = s
        · subst hxs
          refine ⟨[x], ⟨rfl, rfl⟩, ?_⟩
          rw [pathCost_single]
          unfold initWeights
          rw [if_pos rfl]
          norm_cast
        · exfalso
          apply hfin
          unfold initWeights
          rw [if_neg hxs, if_pos hx]
      ws := by unfold initWeights; rw [if_pos rfl]
      sFinite := by intro u hu; exact absurd hu (List.not_mem_nil u)
      bpDom := by intro x u h; exact absurd h (by simp)
      bpS := by intro x u h; exact absurd h (by simp)
      bpRank := by intro x u h hx; exact absurd hx (List.not_mem_nil x)
      finiteBp := by
        intro x hx hfin hxs
        exfalso
        apply hfin
        unfold initWeights
        rw [if_neg hxs, if_pos hx] }

/-- One iteration of the Dijkstra loop preserves the invariant: popping an
infinite-distance vertex changes nothing (and from then on every queue entry
is infinite); popping a finite minimal-distance vertex settles it. -/
theorem dinv_step {K : Type} [DecidableEq K] {g : Graph K} {s : K}
    (hwf : g.Wf) (hnn : NonnegWeights g) (hsk : s ∈ g.keys)
    {S : List K} {q : List (K × W)} {w : K → W} {bp : K → Option K}
    {v : K} {pv : W} {rest : List (K × W)}
    (hinv : DInv g s S q w bp)
    (hpop : pqPopMin q = some ((v, pv), rest)) :
    ∃ S2,
      DInv g s S2
        (relaxList g.traits.isWeighted v (decide (w v = ⊤)) (g.adjOf v) w bp
          rest).2.2
        (relaxList g.traits.isWeighted v (decide (w v = ⊤)) (g.adjOf v) w bp
          rest).1
        (relaxList g.traits.isWeighted v (decide (w v = ⊤)) (g.adjOf v) w bp
          rest).2.1 ∧
      ((relaxList g.traits.isWeighted v (decide (w v = ⊤)) (g.adjOf v) w bp
          rest).2.2).map Prod.fst = rest.map Prod.fst := by
  rcases pqPopMin_spec q (v, pv) rest hpop with ⟨l1, l2, hq, hr, hmin⟩
  have hvpair : (v, pv) ∈ q := by
    rw [hq]
    exact List.mem_append_right _ (List.mem_cons_self _ _)
  have hvq : v ∈ q.map Prod.fst := List.mem_map.mpr ⟨(v, pv), hvpair, rfl⟩
  have hqmap : q.map Prod.fst = l1.map Prod.fst ++ v :: l2.map Prod.fst := by
    rw [hq]
    simp
  have hrmap : rest.map Prod.fst = l1.map Prod.fst ++ l2.map Prod.fst := by
    rw [hr]
    simp
  have hrest_pair_sub : ∀ y, y ∈ rest → y ∈ q := by
    intro y hy
    rw [hr] at hy
    rw [hq]
    rcases List.mem_append.mp hy with h | h
    · exact List.mem_append_left _ h
    · exact List.mem_append_right _ (List.mem_cons_of_mem _ h)
  have hrest_fst_sub : ∀ x, x ∈ rest.map Prod.fst → x ∈ q.map Prod.fst := by
    intro x hx
    rcases List.mem_map.mp hx with ⟨y, hy, rfl⟩
    exact List.mem_map.mpr ⟨y, hrest_pair_sub y hy, rfl⟩
  have hvnotin : v ∉ rest.map Prod.fst ∧ (rest.map Prod.fst).Nodup := by
    have hmid := hinv.itemsNodup
    rw [hqmap] at hmid
    have hmid2 := List.nodup_middle.mp hmid
    rw [hrmap]
    exact ⟨(List.nodup_cons.mp hmid2).1, (List.nodup_cons.mp hmid2).2⟩
  have hqmem_split : ∀ x, x ∈ q.map Prod.fst →
      x = v ∨ x ∈ rest.map Prod.fst := by
    intro x hx
    rw [hqmap] at hx
    rw [hrmap]
    rcases List.mem_append.mp hx with h | h
    · exact Or.inr (List.mem_append_left _ h)
    · rcases List.mem_cons.mp h with rfl | h2
      · exact Or.inl rfl
      · exact Or.inr (List.mem_append_right _ h2)
  have hpvw : pv = w v := hinv.sync (v, pv) hvpair
  have hminw : ∀ x ∈ q.map Prod.fst, w v ≤ w x := by
    intro x hx
    rcases List.mem_map.mp hx with ⟨y, hy, rfl⟩
    have h1 := hmin y hy
    rw [hpvw, hinv.sync y hy] at h1
    exact h1
  by_cases htop : w v = ⊤
  · have hd : decide (w v = ⊤) = true := decide_eq_true htop
    rw [hd, relaxList_inf]
    refine ⟨S, ?_, rfl⟩
    exact
      { nodupS := hinv.nodupS
        subS := hinv.subS
        itemsSub := fun x hx => hinv.itemsSub x (hrest_fst_sub x hx)
        itemsNodup := hvnotin.2
        disj := fun x hx hx2 => hinv.disj x hx (hrest_fst_sub _ hx2)
        cover := by
          intro x hx hq2 hs2
          by_cases hxv : x = v
          · rw [hxv]
            exact htop
          · apply hinv.cover x hx ?_ hs2
            intro hxq
            rcases hqmem_split x hxq with rfl | h2
            · exact hxv rfl
            · exact hq2 h2
        sync := fun y hy => hinv.sync y (hrest_pair_sub y hy)
        phase := Or.inr (by
          intro y hy
          have h1 := hmin y (hrest_pair_sub y hy)
          rw [hpvw, htop, hinv.sync y (hrest_pair_sub y hy)] at h1
          exact top_le_iff.mp h1)
        settledMin := fun u hu x hx =>
          hinv.settledMin u hu x (hrest_fst_sub x hx)
        settledRelaxed := hinv.settledRelaxed
        settledOpt := hinv.settledOpt
        realizable := hinv.realizable
        ws := hinv.ws
        sFinite := hinv.sFinite
        bpDom := hinv.bpDom
        bpS := hinv.bpS
        bpRank := hinv.bpRank
        finiteBp := hinv.finiteBp }
  · have hd : decide (w v = ⊤) = false := decide_eq_false htop
    rw [hd]
    have hnnadj : ∀ p ∈ g.adjOf v, 0 ≤ effW g.traits.isWeighted p.2 :=
      fun p hp => mem_adjOf_nonneg hnn hp
    rcases relaxList_spec g.traits.isWeighted v (g.adjOf v) w bp rest hnnadj
      with ⟨sp1, sp2, sp3, sp4, sp5, sp6⟩
    set w2 := (relaxList g.traits.isWeighted v false (g.adjOf v) w bp rest).1
      with hw2
    set bp2 :=
      (relaxList g.traits.isWeighted v false (g.adjOf v) w bp rest).2.1
      with hbp2
    set q2 := (relaxList g.traits.isWeighted v false (g.adjOf v) w bp rest).2.2
      with hq2
    have hvS : v ∉ S := fun h => hinv.disj v h hvq
    have hvkey : v ∈ g.keys := hinv.itemsSub v hvq
    have hphaseL : ∀ x ∈ g.keys, x ∉ q.map Prod.fst → x ∈ S := by
      rcases hinv.phase with h | h
      · exact h
      · exact absurd (h (v, pv) hvpair) htop
    have hSfrozen : ∀ u ∈ S, w2 u = w u ∧ bp2 u = bp u := by
      intro u hu
      rcases sp3 u with h | ⟨e, hmem, _, hval, hlt⟩
      · exact h
      · exfalso
        have h1 : w u ≤ w v := hinv.settledMin u hu v hvq
        have h2 : w v ≤ w v + (effW g.traits.isWeighted e : W) :=
          le_add_of_nonneg_right (by exact_mod_cast mem_adjOf_nonneg hnn hmem)
        rw [hval] at hlt
        exact absurd hlt (not_lt.mpr (le_trans h1 h2))
    have hwv2 : w2 v = w v := sp1
    have hvnonneg : (0 : W) ≤ w v := by
      rcases hinv.realizable v hvkey htop with ⟨p, hp, hcost⟩
      rw [← hcost]
      exact_mod_cast pathCost_nonneg hwf hnn p s v hp
    have hs_untouched : w2 s = w s ∧ bp2 s = bp s := by
      rcases sp3 s with h | ⟨e, hmem, _, hval, hlt⟩
      · exact h
      · exfalso
        rw [hval, hinv.ws] at hlt
        have h2 : (0 : W) ≤ w v + (effW g.traits.isWeighted e : W) :=
          le_trans hvnonneg (le_add_of_nonneg_right
            (by exact_mod_cast mem_adjOf_nonneg hnn hmem))
        exact absurd hlt (not_lt.mpr h2)
    have hoptv : ∀ π, IsPathF g s v π → w v ≤ (pathCost g π : W) := by
      intro π hπ
      have hvmem : v ∈ π := isPathF_target_mem π s v hπ
      rcases exists_first_not_mem π S v hvmem hvS with
        ⟨pre, y, suf, heq, hyS, hpreS⟩
      subst heq
      rcases isPathF_split pre y suf s v hπ with ⟨hpath1, hpath2⟩
      have hdrop : ∀ u ∈ (pre ++ [y]).dropLast, u ∈ S := by
        rw [List.dropLast_concat]
        exact hpreS
      have hchain : w y ≤ w s + (pathCost g (pre ++ [y]) : W) :=
        dinv_relax_chain hwf hinv (pre ++ [y]) s y hpath1 hdrop
      rw [hinv.ws, zero_add] at hchain
      have hykey : y ∈ g.keys :=
        isPathF_mem_keys hwf (pre ++ y :: suf) s v hsk hπ y (by simp)
      have hyq : y ∈ q.map Prod.fst := by
        by_contra hyq
        exact hyS (hphaseL y hykey hyq)
      have hsufnn : 0 ≤ pathCost g (y :: suf) :=
        pathCost_nonneg hwf hnn _ y v hpath2
      calc w v ≤ w y := hminw y hyq
        _ ≤ (pathCost g (pre ++ [y]) : W) := hchain
        _ ≤ (pathCost g (pre ++ y :: suf) : W) := by
            rw [pathCost_split g pre y suf]
            push_cast
            exact le_add_of_nonneg_right (by exact_mod_cast hsufnn)
    refine ⟨S ++ [v], ?_, sp5⟩
    exact
      { nodupS := hinv.nodupS.append (List.nodup_singleton v)
          (fun a ha ha2 => by
            rcases List.mem_singleton.mp ha2 with rfl
            exact hvS ha)
        subS := by
          intro x hx
          rcases List.mem_append.mp hx with h | h
          · exact hinv.subS x h
          · rcases List.mem_singleton.mp h with rfl
            exact hvkey
        itemsSub := by
          intro x hx
          rw [sp5] at hx
          exact hinv.itemsSub x (hrest_fst_sub x hx)
        itemsNodup := by
          rw [sp5]
          exact hvnotin.2
        disj := by
          intro x hx hx2
          rw [sp5] at hx2
          rcases List.mem_append.mp hx with h | h
          · exact hinv.disj x h (hrest_fst_sub x hx2)
          · rcases List.mem_singleton.mp h with rfl
            exact hvnotin.1 hx2
        cover := by
          intro x hx hq2c hs2
          exfalso
          have hxq : x ∉ q.map Prod.fst := by
            intro hxq
            rcases hqmem_split x hxq with rfl | h2
            · exact hs2 (List.mem_append_right _ (List.mem_singleton.mpr rfl))
            · rw [sp5] at hq2c
              exact hq2c h2
          exact hs2 (List.mem_append_left _ (hphaseL x hx hxq))
        sync := fun y hy =>
          sp6 (fun z hz => hinv.sync z (hrest_pair_sub z hz)) y hy
        phase := Or.inl (by
          intro x hx hq2c
          rw [sp5] at hq2c
          by_cases hxv : x = v
          · rw [hxv]
            exact List.mem_append_right _ (List.mem_singleton.mpr rfl)
          · have hxq : x ∉ q.map Prod.fst := by
              intro hxq
              rcases hqmem_split x hxq with rfl | h2
              · exact hxv rfl
              · exact hq2c h2
            exact List.mem_append_left _ (hphaseL x hx hxq))
        settledMin := by
          intro u hu x hx
          rw [sp5] at hx
          have hw2x : w v ≤ w2 x := by
            rcases sp3 x with ⟨h1, _⟩ | ⟨e, hmem, _, hval, _⟩
            · rw [h1]
              exact hminw x (hrest_fst_sub x hx)
            · rw [hval]
              exact le_add_of_nonneg_right
                (by exact_mod_cast mem_adjOf_nonneg hnn hmem)
          rcases List.mem_append.mp hu with h | h
          · rw [(hSfrozen u h).1]
            exact le_trans (hinv.settledMin u h v hvq) hw2x
          · rcases List.mem_singleton.mp h with rfl
            rw [hwv2]
            exact hw2x
        settledRelaxed := by
          intro u hu p hp
          rcases List.mem_append.mp hu with h | h
          · rw [(hSfrozen u h).1]
            exact le_trans (sp2 p.1) (hinv.settledRelaxed u h p hp)
          · rcases List.mem_singleton.mp h with rfl
            rw [hwv2]
            exact sp4 p hp
        settledOpt := by
          intro u hu π hπ
          rcases List.mem_append.mp hu with h | h
          · rw [(hSfrozen u h).1]
            exact hinv.settledOpt u h π hπ
          · rcases List.mem_singleton.mp h with rfl
            rw [hwv2]
            exact hoptv π hπ
        realizable := by
          intro x hx hfin
          rcases sp3 x with ⟨h1, _⟩ | ⟨e, hmem, _, hval, _⟩
          · rw [h1] at hfin ⊢
            exact hinv.realizable x hx hfin
          · rcases hinv.realizable v hvkey htop with ⟨p, hp, hcost⟩
            refine ⟨p ++ [x],
              isPathF_snoc_edge p s v x hp ((hasEdge_iff g v x).mpr ⟨e, hmem⟩),
              ?_⟩
            rw [pathCost_snoc p s v x hp, edgeWeight_of_mem hwf hmem, hval,
              ← hcost]
            push_cast
            rfl
        ws := by
          rw [hs_untouched.1]
          exact hinv.ws
        sFinite := by
          intro u hu
          rcases List.mem_append.mp hu with h | h
          · rw [(hSfrozen u h).1]
            exact hinv.sFinite u h
          · rcases List.mem_singleton.mp h with rfl
            rw [hwv2]
            exact htop
        bpDom := by
          intro x u h
          rcases sp3 x with ⟨_, h2⟩ | ⟨e, hmem, hbp, hval, hlt⟩
          · rw [h2] at h
            exact hinv.bpDom x u h
          · refine ⟨mem_adjOf_key hwf hmem, ?_⟩
            intro hxs
            subst hxs
            rw [hs_untouched.1] at hlt
            exact lt_irrefl _ hlt
        bpS := by
          intro x u h
          rcases sp3 x with ⟨hwx, hbpx⟩ | ⟨e, hmem, hbp, hval, hlt⟩
          · rw [hbpx] at h
            rcases hinv.bpS x u h with ⟨huS, e, hmem, heq⟩
            refine ⟨List.mem_append_left _ huS, e, hmem, ?_⟩
            rw [(hSfrozen u huS).1, hwx]
            exact heq
          · rw [hbp] at h
            injection h with hu
            subst hu
            refine ⟨List.mem_append_right _ (List.mem_singleton.mpr rfl), e,
              hmem, ?_⟩
            rw [hwv2, hval]
        bpRank := by
          intro x u h hx
          rcases List.mem_append.mp hx with hxS | hxv
          · rw [(hSfrozen x hxS).2] at h
            have hrank := hinv.bpRank x u h hxS
            have huS : u ∈ S := (hinv.bpS x u h).1
            rw [List.indexOf_append_of_mem huS, List.indexOf_append_of_mem hxS]
            exact hrank
          · rcases List.mem_singleton.mp hxv with rfl
            have hbpv : bp2 x = bp x := by
              rcases sp3 x with ⟨_, h2⟩ | ⟨e, hmem, _, hval, hlt⟩
              · exact h2
              · exfalso
                rw [hwv2] at hlt
                exact lt_irrefl _ hlt
            rw [hbpv] at h
            have huS : u ∈ S := (hinv.bpS x u h).1
            rw [List.indexOf_append_of_mem huS,
              List.indexOf_append_of_not_mem hvS, List.indexOf_cons_eq _ rfl]
            have h1 : S.indexOf u < S.length := List.indexOf_lt_length.mpr huS
            omega
        finiteBp := by
          intro x hx hfin hxs
          rcases sp3 x with ⟨hwx, hbpx⟩ | ⟨e, hmem, hbp, _, _⟩
          · rw [hbpx]
            rw [hwx] at hfin
            exact hinv.finiteBp x hx hfin hxs
          · rw [hbp]
            simp }

/-- Running the Dijkstra loop to completion from an invariant state ends in
an invariant state with an empty queue. -/
theorem dloop_dinv {K : Type} [DecidableEq K] {g : Graph K} {s : K}
    (hwf : g.Wf) (hnn : NonnegWeights g) (hsk : s ∈ g.keys) :
    ∀ (n : Nat) (q : List (K × W)) (w : K → W) (bp : K → Option K)
      (S : List K), n = q.length → DInv g s S q w bp →
      ∃ S2, DInv g s S2 [] (dijkstraLoop g n q w bp).1
        (dijkstraLoop g n q w bp).2 := by
  intro n
  induction n with
  | zero =>
    intro q w bp S hlen hinv
    have hq : q = [] := by
      cases q with
      | nil => rfl
      | cons a t2 => exact absurd hlen (by simp)
    subst hq
    exact ⟨S, hinv⟩
  | succ n ih =>
    intro q w bp S hlen hinv
    cases hpop : pqPopMin q with
    | none =>
      cases q with
      | nil => exact absurd hlen (by simp)
      | cons a t2 => exact absurd hpop (pqPopMin_cons_ne_none a t2)
    | some r =>
      rcases r with ⟨⟨v, pv⟩, rest⟩
      rcases dinv_step hwf hnn hsk hinv hpop with ⟨S2, hinv2, hlen2⟩
      rcases pqPopMin_spec q (v, pv) rest hpop with ⟨l1, l2, hqeq, hreq, _⟩
      have hrestlen : rest.length = n := by
        have h1 : q.length = rest.length + 1 := by
          rw [hqeq, hreq]
          simp only [List.length_append, List.length_cons]
          omega
        omega
      have hq2len : n = ((relaxList g.traits.isWeighted v (decide (w v = ⊤))
          (g.adjOf v) w bp rest).2.2).length := by
        have h2 := congrArg List.length hlen2
        rw [List.length_map, List.length_map] at h2
        rw [h2, hrestlen]
      have hunfold : dijkstraLoop g (n + 1) q w bp =
          dijkstraLoop g n
            (relaxList g.traits.isWeighted v (decide (w v = ⊤)) (g.adjOf v) w
              bp rest).2.2
            (relaxList g.traits.isWeighted v (decide (w v = ⊤)) (g.adjOf v) w
              bp rest).1
            (relaxList g.traits.isWeighted v (decide (w v = ⊤)) (g.adjOf v) w
              bp rest).2.1 := by
        conv_lhs => rw [dijkstraLoop]
        rw [hpop]
      rw [hunfold]
      exact ih _ _ _ S2 hq2len hinv2

/-- From a final invariant state, the reconstruction loop (lines 122-137)
starting at a settled vertex succeeds and returns a path from the source
whose cost is the vertex's final distance.  The fuel only needs to exceed
the vertex's settling position. -/
theorem reconstruct_spec {K : Type} [DecidableEq K] {g : Graph K} {s : K}
    {S : List K} {w : K → W} {bp : K → Option K}
    (hwf : g.Wf) (hinv : DInv g s S [] w bp) :
    ∀ (fuel : Nat) (x : K) (acc : List K), x ∈ S → S.indexOf x < fuel →
      ∃ pre, reconstruct bp s fuel x (x :: acc) =
          some (.ok (pre ++ x :: acc)) ∧
        IsPathF g s x (pre ++ [x]) ∧ (pathCost g (pre ++ [x]) : W) = w x := by
  intro fuel
  induction fuel with
  | zero => intro x acc _ h; exact absurd h (Nat.not_lt_zero _)
  | succ f ih =>
    intro x acc hxS hidx
    by_cases hxs : x = s
    · subst hxs
      refine ⟨[], ?_, ⟨rfl, rfl⟩, ?_⟩
      · rw [reconstruct, if_pos rfl]
        rfl
      · rw [show (([] : List K) ++ [x]) = [x] from rfl, pathCost_single,
          hinv.ws]
        norm_cast
    · have hxfin : w x ≠ ⊤ := hinv.sFinite x hxS
      have hxkey : x ∈ g.keys := hinv.subS x hxS
      have hbpx : bp x ≠ none := hinv.finiteBp x hxkey hxfin hxs
      cases hbp : bp x with
      | none => exact absurd hbp hbpx
      | some u =>
        rcases hinv.bpS x u hbp with ⟨huS, e, hmem, heq⟩
        have hrank := hinv.bpRank x u hbp hxS
        have hidx2 : S.indexOf u < f := by omega
        rcases ih u (x :: acc) huS hidx2 with ⟨pre2, hrec, hpath, hcost⟩
        refine ⟨pre2 ++ [u], ?_, ?_, ?_⟩
        · rw [reconstruct, if_neg hxs, hbp]
          show reconstruct bp s f u (u :: x :: acc) =
            some (.ok ((pre2 ++ [u]) ++ x :: acc))
          rw [hrec, List.append_assoc]
          rfl
        · exact isPathF_snoc_edge (pre2 ++ [u]) s u x hpath
            ((hasEdge_iff g u x).mpr ⟨e, hmem⟩)
        · rw [pathCost_snoc (pre2 ++ [u]) s u x hpath,
            edgeWeight_of_mem hwf hmem]
          push_cast
          rw [hcost, heq]

theorem reconstruct_source {K : Type} [DecidableEq K] (bp : K → Option K)
    (s : K) (acc : List K) (f : Nat) :
    reconstruct bp s (f + 1) s acc = some (.ok acc) := by
  rw [reconstruct, if_pos rfl]

theorem reconstruct_noBp {K : Type} [DecidableEq K] (bp : K → Option K)
    (s t : K) (hts : ¬ t = s) (hbp : bp t = none) (f : Nat) (acc : List K) :
    reconstruct bp s (f + 1) t acc = some (.error .targetNotReachable) := by
  rw [reconstruct, if_neg hts, hbp]

/-- In the final state, finite distances propagate along every edge out of a
finite vertex, so every vertex reachable from a finite one is finite. -/
theorem dinv_final_reach_finite {K : Type} [DecidableEq K] {g : Graph K}
    {s : K} {S : List K} {w : K → W} {bp : K → Option K}
    (hwf : g.Wf) (hinv : DInv g s S [] w bp) :
    ∀ (p : List K) (a b : K), IsPathF g a b p → a ∈ g.keys → w a ≠ ⊤ →
      w b ≠ ⊤ := by
  have F1 : ∀ x ∈ g.keys, w x ≠ ⊤ → x ∈ S := by
    intro x hx hfx
    by_contra hxS
    exact hfx (hinv.cover x hx (by simp) hxS)
  intro p
  induction p with
  | nil => intro a b h; exact h.elim
  | cons u r ih =>
    intro a b h ha hfa
    cases r with
    | nil =>
      rcases h with ⟨rfl, rfl⟩
      exact hfa
    | cons c r2 =>
      rcases h with ⟨rfl, huc, hrest⟩
      have huS : u ∈ S := F1 u ha hfa
      rcases (hasEdge_iff g u c).mp huc with ⟨e, he⟩
      have hc : w c ≤ w u + (effW g.traits.isWeighted e : W) :=
        hinv.settledRelaxed u huS (c, e) he
      have hcfin : w c ≠ ⊤ := by
        intro hcc
        rw [hcc] at hc
        rcases WithTop.add_eq_top.mp (top_le_iff.mp hc) with h3 | h3
        · exact hfa h3
        · exact WithTop.coe_ne_top h3
      exact ih c b hrest (mem_adjOf_key hwf he) hcfin

/-- A complete `ShortestPath` run: the Dijkstra loop ends in a final
invariant state whose distance and best-predecessor tables feed the
reconstruction. -/
theorem shortestPath_run {K : Type} [DecidableEq K] (g : Graph K) (s t : K)
    (hwf : g.Wf) (hnn : NonnegWeights g) (hsk : s ∈ g.keys) :
    ∃ S w bp, DInv g s S [] w bp ∧
      ShortestPath g s t = reconstruct bp s (g.keys.length + 2) t [t] := by
  rcases dloop_dinv hwf hnn hsk
    (g.keys.map (fun k => (k, initWeights g s k))).length
    (g.keys.map (fun k => (k, initWeights g s k))) (initWeights g s)
    (fun _ => none) [] rfl (dinv_init g s hwf hsk) with ⟨S, hfin⟩
  exact ⟨S, _, _, hfin, rfl⟩

/-- Trichotomy of a `ShortestPath` result on a well-formed graph with
non-negative effective weights: the trivial source-path, the
`TargetNotReachable` error exactly on an unreachable target, or a returned
path of minimal cost. -/
theorem shortestPath_cases {K : Type} [DecidableEq K] (g : Graph K)
    (s t : K) (hwf : g.Wf) (hnn : NonnegWeights g) (hsk : s ∈ g.keys) :
    (t = s ∧ ShortestPath g s t = some (.ok [t])) ∨
    (¬ t = s ∧ ShortestPath g s t = some (.error .targetNotReachable) ∧
      ¬ ReachF g s t) ∨
    (¬ t = s ∧ ∃ p, ShortestPath g s t = some (.ok p) ∧ IsPathF g s t p ∧
      ReachF g s t ∧
      ∀ q2, IsPathF g s t q2 → pathCost g p ≤ pathCost g q2) := by
  rcases shortestPath_run g s t hwf hnn hsk with ⟨S, w, bp, hfin, hSP⟩
  by_cases hts : t = s
  · subst hts
    left
    refine ⟨rfl, ?_⟩
    rw [hSP]
    exact reconstruct_source bp t [t] (g.keys.length + 1)
  · right
    have F1 : ∀ x ∈ g.keys, w x ≠ ⊤ → x ∈ S := by
      intro x hx hfx
      by_contra hxS
      exact hfx (hfin.cover x hx (by simp) hxS)
    have hws_ne : w s ≠ ⊤ := by
      rw [hfin.ws]
      simp
    by_cases htk : t ∈ g.keys
    · by_cases hwt : w t = ⊤
      · refine Or.inl ⟨hts, ?_, ?_⟩
        · have hbpt : bp t = none := by
            cases hbp : bp t with
            | none => rfl
            | some u =>
              rcases hfin.bpS t u hbp with ⟨huS, e, hmem, heq⟩
              exfalso
              rw [hwt] at heq
              rcases WithTop.add_eq_top.mp heq with h3 | h3
              · exact hfin.sFinite u huS h3
              · exact WithTop.coe_ne_top h3
          rw [hSP]
          exact reconstruct_noBp bp s t hts hbpt (g.keys.length + 1) [t]
        · rintro ⟨p, hp⟩
          exact dinv_final_reach_finite hwf hfin p s t hp hsk hws_ne hwt
      · refine Or.inr ⟨hts, ?_⟩
        have htS : t ∈ S := F1 t htk hwt
        have hidx : S.indexOf t < g.keys.length + 2 := by
          have h1 : S.indexOf t < S.length := List.indexOf_lt_length.mpr htS
          have h2 : S.length ≤ g.keys.length :=
            List.Subperm.length_le
              (List.Nodup.subperm hfin.nodupS (fun x hx => hfin.subS x hx))
          omega
        rcases reconstruct_spec hwf hfin (g.keys.length + 2) t [] htS hidx
          with ⟨pre, hrec, hpath, hcost⟩
        refine ⟨pre ++ [t], ?_, hpath, ⟨pre ++ [t], hpath⟩, ?_⟩
        · rw [hSP]
          exact hrec
        · intro q2 hq2
          have h1 := hfin.settledOpt t htS q2 hq2
          rw [← hcost] at h1
          exact_mod_cast h1
    · refine Or.inl ⟨hts, ?_, ?_⟩
      · have hbpt : bp t = none := by
          cases hbp : bp t with
          | none => rfl
          | some u => exact absurd (hfin.bpDom t u hbp).1 htk
        rw [hSP]
        exact reconstruct_noBp bp s t hts hbpt (g.keys.length + 1) [t]
      · rintro ⟨p, hp⟩
        rcases isPathF_target_edge p s t hp with rfl | ⟨u, hu⟩
        · exact hts rfl
        · rcases (hasEdge_iff g u t).mp hu with ⟨e, he⟩
          exact htk (mem_adjOf_key hwf he)

/-! ## Claims -/

/-- C10: `shortestPath` performs no vertex-existence validation: for every
graph and every hash `v` — present in the graph or not — `shortestPath(g, v,
v)` returns the single-vertex path `[v]` with no error; in particular it
never reports `VertexNotFound`. -/
theorem shortestPath_self_no_validation {K : Type} [DecidableEq K]
    (g : Graph K) (v : K) : ShortestPath g v v = some (.ok [v]) := by
  unfold ShortestPath
  show reconstruct _ v (g.keys.length + 2) v [v] = some (.ok [v])
  simp [reconstruct]

/-- C9: `createsCycle` fails with `VertexNotFound` (and yields no boolean
result) whenever either endpoint is absent from the vertex store. -/
theorem createsCycle_absent_vertex {K : Type} [DecidableEq K] (g : Graph K)
    (s t : K) (h : s ∉ g.verts ∨ t ∉ g.verts) :
    CreatesCycle g s t = some (.error .vertexNotFound) := by
  unfold CreatesCycle
  rcases h with h | h
  · rw [if_pos h]
  · by_cases hs : s ∉ g.verts
    · rw [if_pos hs]
    · rw [if_neg hs, if_pos h]

/-- Witness for C9 at a concrete absent source vertex. -/
theorem createsCycle_absent_vertex_witness :
    (("Z" : String) ∉ weightedExampleG.verts ∨
        ("A" : String) ∉ weightedExampleG.verts) ∧
      CreatesCycle weightedExampleG "Z" "A" = some (.error .vertexNotFound) :=
  ⟨Or.inl (by decide),
    createsCycle_absent_vertex weightedExampleG "Z" "A" (Or.inl (by decide))⟩

/-- C8: on a graph whose traits declare it undirected,
`stronglyConnectedComponents` fails with `InvalidGraphKind` and returns no
components. -/
theorem scc_undirected_fails {K : Type} [DecidableEq K] [Inhabited K]
    (g : Graph K) (h : g.traits.isDirected = false) :
    StronglyConnectedComponents g = .error .invalidGraphKind := by
  unfold StronglyConnectedComponents
  rw [if_pos h]

/-- Witness for C8 on a concrete undirected graph. -/
theorem scc_undirected_fails_witness :
    undirectedDemoG.traits.isDirected = false ∧
      StronglyConnectedComponents undirectedDemoG = .error .invalidGraphKind :=
  ⟨rfl, scc_undirected_fails undirectedDemoG rfl⟩

/-- C4 (code bug): the component-emission loop of `findSCC` (lines 222-231)
checks `hash != vertexHash` before the first pop, with `hash` initialized to
the zero value of `K`.  A root vertex whose hash *is* the zero value (here
the string `""`) therefore emits an empty component and is left out of every
component, refuting the partition property; an otherwise identical graph
whose vertex has a non-zero hash gets the correct singleton component. -/
theorem scc_zero_value_root_dropped :
    StronglyConnectedComponents sccZeroValueG = .ok [[]] ∧
    "" ∈ sccZeroValueG.keys ∧
    StronglyConnectedComponents sccSingletonG = .ok [["a"]] :=
  ⟨rfl, by decide, rfl⟩

/-- C5: no pop from the priority queue can fail during `shortestPath` or
`findAllPaths` — every pop in both operations is guarded by a positive
queue length and the queue's pop fails only on an empty queue — so, a
fortiori, no pop failure is ever discarded or causes undefined behavior,
and neither operation ever returns the `QueueError` that `findAllPaths`'s
surfacing branch (line 261) would produce.  (Note `ShortestPath` line 99
discards the pop error with a blank identifier; the guard makes that
error unreachable.) -/
theorem queue_pop_never_fails :
    (∀ {K : Type} [DecidableEq K] (g : Graph K) (s t : K),
        ShortestPath g s t ≠ some (.error .queueError)) ∧
    (∀ (g : Graph String) (s t : String),
        FindAllPaths g s t ≠ some (.error .queueError)) := by
  constructor
  · intro K _ g s t
    unfold ShortestPath
    exact reconstruct_ne_queueError _ _ _ _ _
  · intro g s t
    unfold FindAllPaths
    exact faLoop_ne_queueError g t _ _ _

/-- C1 (counterexample): `findAllPaths` carries paths as `"->"`-joined
strings, so a vertex hash containing the separator corrupts the result:
in A → "B->C" → D the simple path `[A, "B->C", D]` exists, yet the returned
collection is empty. -/
theorem findAllPaths_separator_collision_corrupts :
    IsPathF sepCollisionG "A" "D" ["A", "B->C", "D"] ∧
    (["A", "B->C", "D"] : List String).Nodup ∧
    FindAllPaths sepCollisionG "A" "D" = some (.ok []) :=
  ⟨by decide, by decide, rfl⟩

/-- C1 (amended): each complete path is returned as a single
`"->"`-delimiter-joined string — not as a structured sequence of hashes —
the sequence being recoverable only by re-splitting on the separator. -/
theorem findAllPaths_returns_joined_text :
    FindAllPaths lineG "A" "D" = some (.ok ["A->B->D"]) ∧
    strSplitGap "A->B->D" = ["A", "B", "D"] :=
  ⟨rfl, by decide⟩

/-- C2 (counterexample): the membership test of the enumerator is
`strings.Contains` on the joined path text, so a vertex hash that is a
substring of another corrupts the enumeration: in AB → A → C the simple
path `[AB, A, C]` exists (`"A"` is a substring of `"AB"`), yet the returned
collection is empty. -/
theorem findAllPaths_substring_collision_drops_path :
    IsPathF substrCollisionG "AB" "C" ["AB", "A", "C"] ∧
    (["AB", "A", "C"] : List String).Nodup ∧
    FindAllPaths substrCollisionG "AB" "C" = some (.ok []) :=
  ⟨by decide, by decide, rfl⟩

/-- C7: for existing vertices of a well-formed graph, `createsCycle(g, s,
t)` returns true iff `s = t` or `t` is reachable from `s` by walking
backward through predecessor edges; in particular `createsCycle(g, v, v)`
is true for every existing `v`, and whenever `createsCycle(g, a, b)` is
false no forward path from `b` to `a` exists. -/
theorem createsCycle_iff_backward_reach {K : Type} [DecidableEq K]
    (g : Graph K) (s t : K) (hwf : g.Wf) (hs : s ∈ g.verts)
    (ht : t ∈ g.verts) :
    (CreatesCycle g s t = some (.ok true) ↔ (s = t ∨ ReachP g s t)) ∧
    CreatesCycle g s s = some (.ok true) ∧
    (CreatesCycle g s t = some (.ok false) → ¬ ReachF g t s) := by
  have hmap : ∀ o : Option Bool,
      o.map Except.ok = (some (Except.ok true) : Option (Except GErr Bool)) ↔
        o = some true := by
    intro o
    cases o with
    | none => simp
    | some b => simp
  have hmain : CreatesCycle g s t = some (.ok true) ↔ (s = t ∨ ReachP g s t) := by
    unfold CreatesCycle
    rw [if_neg (not_not_intro hs), if_neg (not_not_intro ht)]
    by_cases hst : s = t
    · rw [if_pos hst]
      exact iff_of_true rfl (Or.inl hst)
    · rw [if_neg hst, hmap]
      have hpot : cdfsPotential g [s] [] < cdfsFuel g := by
        unfold cdfsPotential cdfsFuel
        have : g.pkeys.filter (fun v => decide (v ∉ ([] : List K))) = g.pkeys := by
          simp
        rw [this]
        simp
      rw [cdfs_correct g t (cdfsFuel g) [s] [] hpot (by simp) (by simp)]
      constructor
      · rintro ⟨x, hx, hr⟩
        rcases List.mem_singleton.mp hx with rfl
        exact Or.inr hr
      · rintro (rfl | hr)
        · exact absurd rfl hst
        · exact ⟨s, List.mem_singleton.mpr rfl, hr⟩
  refine ⟨hmain, ?_, ?_⟩
  · unfold CreatesCycle
    rw [if_neg (not_not_intro hs), if_neg (not_not_intro hs), if_pos rfl]
  · intro hfalse hreach
    rcases hreach with ⟨p, hp⟩
    have htrue : CreatesCycle g s t = some (.ok true) :=
      hmain.mpr (Or.inr (isPathF_to_reachP hwf p t s hp))
    rw [hfalse] at htrue
    simp at htrue

/-- Witness for C7 on the weighted example graph with source B, target A
(adding B → A would close a cycle with A → B). -/
theorem createsCycle_iff_backward_reach_witness :
    weightedExampleG.Wf ∧ ("B" : String) ∈ weightedExampleG.verts ∧
      ("A" : String) ∈ weightedExampleG.verts ∧
      ((CreatesCycle weightedExampleG "B" "A" = some (.ok true) ↔
          ("B" : String) = "A" ∨ ReachP weightedExampleG "B" "A") ∧
        CreatesCycle weightedExampleG "B" "B" = some (.ok true) ∧
        (CreatesCycle weightedExampleG "B" "A" = some (.ok false) →
          ¬ ReachF weightedExampleG "A" "B")) :=
  ⟨by decide, by decide, by decide,
    createsCycle_iff_backward_reach weightedExampleG "B" "A" (by decide)
      (by decide) (by decide)⟩

/-- C3 (amended): on a well-formed graph whose effective edge weights are
all non-negative (the spec's standing Dijkstra precondition; always true for
unweighted graphs), `shortestPath` returns the `TargetNotReachable` error
exactly when the target is not forward-reachable from the source, and for a
reachable target it returns a path.  (Without the precondition the claim
fails: see the negative-cycle counterexample, where the code diverges.) -/
theorem shortestPath_unreachable_iff {K : Type} [DecidableEq K] (g : Graph K)
    (s t : K) (hwf : g.Wf) (hnn : NonnegWeights g) (hsk : s ∈ g.keys) :
    (ShortestPath g s t = some (.error .targetNotReachable) ↔
      ¬ ReachF g s t) ∧
    (ReachF g s t → ∃ p, ShortestPath g s t = some (.ok p)) := by
  rcases shortestPath_cases g s t hwf hnn hsk with
    ⟨hts, hres⟩ | ⟨hts, hres, hnr⟩ | ⟨hts, p, hres, hpath, hreach, hmin⟩
  · subst hts
    constructor
    · rw [hres]
      exact iff_of_false (by simp) (fun h => h ⟨[t], rfl, rfl⟩)
    · intro _
      exact ⟨[t], hres⟩
  · constructor
    · rw [hres]
      exact iff_of_true rfl hnr
    · intro h
      exact absurd h hnr
  · constructor
    · rw [hres]
      exact iff_of_false (by simp) (fun h => h hreach)
    · intro _
      exact ⟨p, hres⟩

/-- Witness for the amended C3 on the weighted example graph (A→B 1, B→C 2,
A→C 5), whose weights are non-negative. -/
theorem shortestPath_unreachable_iff_witness :
    weightedExampleG.Wf ∧ NonnegWeights weightedExampleG ∧
      ("A" : String) ∈ weightedExampleG.keys ∧
      ((ShortestPath weightedExampleG "A" "C" =
          some (.error .targetNotReachable) ↔
          ¬ ReachF weightedExampleG "A" "C") ∧
        (ReachF weightedExampleG "A" "C" →
          ∃ p, ShortestPath weightedExampleG "A" "C" = some (.ok p))) :=
  ⟨by decide, by decide, by decide,
    shortestPath_unreachable_iff weightedExampleG "A" "C" (by decide)
      (by decide) (by decide)⟩

/-- C6: on a graph whose traits declare it unweighted, `shortestPath`
treats every edge's effective weight as 1 (lines 106-110), and any path it
successfully returns is a path from source to target with the minimum
possible number of vertices — hence the minimum possible edge count —
among all paths between them. -/
theorem shortestPath_unweighted_min_edges {K : Type} [DecidableEq K]
    (g : Graph K) (s t : K) (p : List K) (hwf : g.Wf)
    (hUnw : g.traits.isWeighted = false) (hsk : s ∈ g.keys)
    (hres : ShortestPath g s t = some (.ok p)) :
    (∀ e : Int, effW g.traits.isWeighted e = 1) ∧
    IsPathF g s t p ∧
    (∀ q2, IsPathF g s t q2 → p.length ≤ q2.length) := by
  have heff : ∀ e : Int, effW g.traits.isWeighted e = 1 := by
    intro e
    rw [hUnw]
    rfl
  have hnn : NonnegWeights g := by
    intro pr hpr q hq
    rw [heff]
    omega
  rcases shortestPath_cases g s t hwf hnn hsk with
    ⟨hts, hres2⟩ | ⟨hts, hres2, hnr⟩ | ⟨hts, p2, hres2, hpath, hreach, hmin⟩
  · subst hts
    rw [hres2] at hres
    injection hres with h1
    injection h1 with h2
    subst h2
    refine ⟨heff, ⟨rfl, rfl⟩, ?_⟩
    intro q2 hq2
    cases q2 with
    | nil => exact hq2.elim
    | cons a r => simp
  · rw [hres2] at hres
    exact absurd hres (by simp)
  · rw [hres2] at hres
    injection hres with h1
    injection h1 with h2
    subst h2
    refine ⟨heff, hpath, ?_⟩
    intro q2 hq2
    have h1 := hmin q2 hq2
    have hp2ne : p2 ≠ [] := by
      cases p2 with
      | nil => exact hpath.elim
      | cons a r => simp
    have hq2ne : q2 ≠ [] := by
      cases q2 with
      | nil => exact hq2.elim
      | cons a r => simp
    rw [pathCost_unweighted hUnw p2 hp2ne, pathCost_unweighted hUnw q2 hq2ne]
      at h1
    omega

/-- Witness for C6 on the unweighted example graph, where `ShortestPath`
returns the two-edge path `[A, B, D]`. -/
theorem shortestPath_unweighted_min_edges_witness :
    pathsExampleG.Wf ∧ pathsExampleG.traits.isWeighted = false ∧
      ("A" : String) ∈ pathsExampleG.keys ∧
      ShortestPath pathsExampleG "A" "D" = some (.ok ["A", "B", "D"]) ∧
      ((∀ e : Int, effW pathsExampleG.traits.isWeighted e = 1) ∧
        IsPathF pathsExampleG "A" "D" ["A", "B", "D"] ∧
        (∀ q2, IsPathF pathsExampleG "A" "D" q2 →
          (["A", "B", "D"] : List String).length ≤ q2.length)) :=
  ⟨by decide, rfl, by decide, rfl,
    shortestPath_unweighted_min_edges pathsExampleG "A" "D" ["A", "B", "D"]
      (by decide) rfl (by decide) rfl⟩

/-- C2 (amended): on the spec's example graph (edges A→B, A→C, B→D, C→D,
whose hashes are collision-free) `findAllPaths(A, D)` returns exactly the
two `"->"`-joined strings of the exactly two simple paths `[A,B,D]` and
`[A,C,D]`; on such graphs the enumeration is exact, while vertex hashes
that collide as substrings of the joined text can lose paths. -/
theorem findAllPaths_example_exact :
    FindAllPaths pathsExampleG "A" "D" = some (.ok ["A->B->D", "A->C->D"]) ∧
    strSplitGap "A->B->D" = ["A", "B", "D"] ∧
    strSplitGap "A->C->D" = ["A", "C", "D"] ∧
    IsPathF pathsExampleG "A" "D" ["A", "B", "D"] ∧
    IsPathF pathsExampleG "A" "D" ["A", "C", "D"] ∧
    (∀ p, IsPathF pathsExampleG "A" "D" p →
      p = ["A", "B", "D"] ∨ p = ["A", "C", "D"]) := by
  refine ⟨rfl, by decide, by decide, by decide, by decide, ?_⟩
  intro p hp
  rcases p with _ | ⟨v, rest⟩
  · exact hp.elim
  rcases rest with _ | ⟨w, rest⟩
  · rcases hp with ⟨rfl, hAD⟩
    exact absurd hAD (by decide)
  rcases hp with ⟨rfl, hA, hp2⟩
  have hw : w = "B" ∨ w = "C" := by
    have hmem : w ∈ (["B", "C"] : List String) := hA
    simpa using hmem
  rcases hw with rfl | rfl
  · rcases rest with _ | ⟨x, rest2⟩
    · rcases hp2 with ⟨-, hBD⟩
      exact absurd hBD (by decide)
    rcases hp2 with ⟨-, hB, hp3⟩
    have hx : x = "D" := by
      have hmem : x ∈ (["D"] : List String) := hB
      simpa using hmem
    subst hx
    rcases rest2 with _ | ⟨y, rest3⟩
    · exact Or.inl rfl
    · rcases hp3 with ⟨-, hD, -⟩
      have hmem : y ∈ ([] : List String) := hD
      exact absurd hmem (List.not_mem_nil y)
  · rcases rest with _ | ⟨x, rest2⟩
    · rcases hp2 with ⟨-, hCD⟩
      exact absurd hCD (by decide)
    rcases hp2 with ⟨-, hC, hp3⟩
    have hx : x = "D" := by
      have hmem : x ∈ (["D"] : List String) := hC
      simpa using hmem
    subst hx
    rcases rest2 with _ | ⟨y, rest3⟩
    · exact Or.inr rfl
    · rcases hp3 with ⟨-, hD, -⟩
      have hmem : y ∈ ([] : List String) := hD
      exact absurd hmem (List.not_mem_nil y)

/-- C3 (counterexample): on a weighted graph with a negative cycle
(s→a weight 1, a→b weight 1, b→a weight -10) the target `b` is forward-
reachable from `s`, yet `ShortestPath` neither returns a path nor the
`TargetNotReachable` error: the best-predecessor walk enters the cycle
a ↦ b ↦ a and the Go reconstruction loop (lines 125-135) never terminates,
which the model reports as `none`. -/
theorem shortestPath_negative_cycle_diverges :
    IsPathF negCycleG "s" "b" ["s", "a", "b"] ∧
    ShortestPath negCycleG "s" "b" = none :=
  ⟨by decide, rfl⟩

end PathsGo
